import Mathlib

set_option maxRecDepth 10000

/-!
# A shallow embedding of the go-sdbm key-value store

This file embeds the core of the `sdbm` Go package (files `sdbm.go` /
`pair.go` / `hash.go` of vvatanabe/go-sdbm) into Lean 4 and proves
properties of the embedded definitions.

Modelling conventions:

* Go byte slices are `List Nat` (each element a byte value `< 256`); a Go
  slice that may be `nil` (`Datum`) is `Option (List Nat)`, with `none`
  standing for the `nil` slice — in Go a nil slice and a non-nil empty
  slice are distinguishable (`x == nil`), and `bad`/`Nullitem` rely on
  that distinction.
* Go `uint16` arithmetic is `Nat` arithmetic with an explicit `% 256` /
  `% 65536` decomposition where the code stores 16-bit values.
* The 64-bit hash accumulator is `Nat` arithmetic with an explicit
  `% 2 ^ 64`; the final cast to `int64` is `int64OfUInt64`.
* Files are byte-content functions `Nat → Nat` together with an explicit
  size; reading past end-of-file leaves the destination buffer unchanged,
  exactly as the Go helper `seekRead` does (it swallows `io.EOF` and
  `File.Read` does not touch bytes it did not read).
* The file operations of the store are modelled error-free except for the
  direct `pagf.Read` inside `getNext`, which in the source distinguishes
  `io.EOF` from other read errors; an error oracle `pagErr` models the
  latter.  Every file access additionally appends a ghost `Ev` event to an
  event trace so that ordering and frame properties of the I/O can be
  stated.
-/

namespace Sdbm

/-- `BITSIZ` — number of bits per byte. -/
def BITSIZ : Nat := 8

/-- `DBLKSIZ` — block size in bytes of a `.dir` file. -/
def DBLKSIZ : Nat := 4096

/-- `PBLKSIZ` — block size in bytes of a `.pag` file. -/
def PBLKSIZ : Nat := 1024

/-- `PAIRMAX` — maximum size in bytes of a key-value pair. -/
def PAIRMAX : Nat := 1008

/-- `SPLTMAX` — maximum number of page splits allowed during insertion. -/
def SPLTMAX : Nat := 10

/-- `SHORTSIZE` — size in bytes of a short integer. -/
def SHORTSIZE : Nat := 2

/-- The unsigned 64-bit hash accumulator of `Hash` (hash.go):
`hash = uint64(data[i]) + 65599*hash`, with `uint64` wrap-around made
explicit by `% 2 ^ 64`. -/
def hashW (data : List Nat) : Nat :=
  data.foldl (fun h b => (b + 65599 * h) % 2 ^ 64) 0

/-- Reinterpret an unsigned 64-bit value as a signed two's-complement
64-bit integer (the final `int64(hash)` conversion in `Hash`). -/
def int64OfUInt64 (u : Nat) : Int :=
  if u < 2 ^ 63 then (u : Int) else (u : Int) - 2 ^ 64

/-- `Hash` (hash.go): polynomial conversion ignoring overflows, returned
as a signed 64-bit integer. -/
def Hash (data : List Nat) : Int :=
  int64OfUInt64 (hashW data)

/-- The `masks` table of sdbm.go: `masks[k] = 2^k - 1` for `k = 0 … 31`,
written in octal as in the source. -/
def masks : List Nat :=
  [0o00000000000, 0o00000000001, 0o00000000003, 0o00000000007,
   0o00000000017, 0o00000000037, 0o00000000077, 0o00000000177,
   0o00000000377, 0o00000000777, 0o00000001777, 0o00000003777,
   0o00000007777, 0o00000017777, 0o00000037777, 0o00000077777,
   0o00000177777, 0o00000377777, 0o00000777777, 0o00001777777,
   0o00003777777, 0o00007777777, 0o00017777777, 0o00037777777,
   0o00077777777, 0o00177777777, 0o00377777777, 0o00777777777,
   0o01777777777, 0o03777777777, 0o07777777777, 0o17777777777]

/-- `masks[hbit]`; Go panics on an out-of-range index, the model returns 0
(the walks in this development stay far below index 32). -/
def masksGet (i : Nat) : Nat := masks.getD i 0

/-- `Datum` (sdbm.go): a Go byte slice, which is either `nil` or a list of
bytes.  `none` is the nil slice (`Nullitem`). -/
def Datum : Type := Option (List Nat)

instance : DecidableEq Datum := by unfold Datum; infer_instance

/-- The byte content of a `Datum`; a nil slice reads as no bytes. -/
def Datum.bytes (d : Datum) : List Nat := d.getD []

/-- `Datum.Size` (sdbm.go): `len(d)`. -/
def Datum.size (d : Datum) : Nat := d.bytes.length

/-- `Nullitem` (sdbm.go): the nil `Datum`. -/
def Nullitem : Datum := none

/-- `bad` (sdbm.go): `x == nil`.  Only the nil slice is bad; a non-nil
zero-length slice is not. -/
def bad (x : Datum) : Bool := x = Nullitem

/-- `exHash` (sdbm.go) computes `Hash(item)` as an `int64`.  The store
only combines the hash with non-negative masks below `2 ^ 32` (`& hmask`,
`& (1 << hbit)`, `| (hmask+1)`), and on those operations the signed
`int64` behaves exactly like the unsigned accumulator, so the store model
uses the unsigned value `hashW` directly. -/
def exHashU (item : Datum) : Nat := hashW item.bytes

/-! ## The page layer (pair.go)

A `Page` is a 1024-byte buffer, modelled as a `List Nat` of length
`PBLKSIZ`.  All offsets are `Nat`; where the Go code uses `int`
subtractions that can only go negative on inputs where Go would panic
with a slice-bounds error (noted case by case), the model uses truncated
`Nat` subtraction. -/

/-- A page buffer (`Page.buf`), and also the directory block buffer. -/
abbrev Buf := List Nat

/-- Read byte `i` of a buffer (out-of-range reads as 0; the Go array is
fixed-size so in-range accesses are the only ones that occur on
length-`PBLKSIZ` buffers). -/
def getByte (p : Buf) (i : Nat) : Nat := p.getD i 0

/-- Write byte `i` of a buffer (out-of-range writes are dropped, as in
`List.set`). -/
def setByte (p : Buf) (i v : Nat) : Buf := p.set i v

/-- `getIno` (pair.go): the little-endian 16-bit entry `i` of the offset
table, `binary.LittleEndian.Uint16(buf[2i:2i+2])`. -/
def getIno (p : Buf) (i : Nat) : Nat :=
  getByte p (2 * i) + 256 * getByte p (2 * i + 1)

/-- `setIno` (pair.go): store a 16-bit value little-endian at entry `i`;
the two stored bytes are the low and high byte of `v % 65536`, exactly
`binary.LittleEndian.PutUint16`. -/
def setIno (p : Buf) (i v : Nat) : Buf :=
  setByte (setByte p (2 * i) (v % 256)) (2 * i + 1) (v / 256 % 256)

/-- `getN`: the entry count `ino[0]`. -/
def getN (p : Buf) : Nat := getIno p 0

/-- `setN`: store the entry count. -/
def setN (p : Buf) (v : Nat) : Buf := setIno p 0 v

/-- Go `copy(p[off:], src)`: write the bytes of `src` at positions
`off, off+1, …`; bytes falling beyond the end of `p` are dropped, which
is exactly Go's truncation of `copy` at the destination length. -/
def copyAt : Buf → Nat → List Nat → Buf
  | p, _, [] => p
  | p, off, b :: bs => copyAt (p.set off b) (off + 1) bs

/-- Go slice expression `p[a:b]` (for `a ≤ b ≤ len p`; a slicing that Go
would reject returns the clipped list). -/
def extractBuf (p : Buf) (a b : Nat) : List Nat := (p.take b).drop a

/-- The all-zero page. -/
def zeroBuf : Buf := List.replicate PBLKSIZ 0

/-- The all-zero directory block. -/
def zeroDir : Buf := List.replicate DBLKSIZ 0

/-- `FitPair` (pair.go).  `free = off - (n+1)*SHORTSIZE` is computed in
Go `int` arithmetic, which the model mirrors with `Int`. -/
def fitPair (p : Buf) (need : Nat) : Bool :=
  let n := getN p
  let off := if n > 0 then getIno p n else PBLKSIZ
  let free : Int := (off : Int) - (n + 1) * SHORTSIZE
  decide ((need : Int) + 2 * SHORTSIZE ≤ free)

/-- `PutPair` (pair.go).  The `off -= size` steps use Go `int`
subtraction; they go negative only when the pair does not fit, in which
case Go panics on the subsequent `copy` — the model truncates at 0
instead. -/
def putPair (p : Buf) (key val : List Nat) : Buf :=
  let n := getN p
  let off := if n > 0 then getIno p n else PBLKSIZ
  let off1 := off - key.length
  let p1 := setIno (copyAt p off1 key) (n + 1) off1
  let off2 := off1 - val.length
  let p2 := setIno (copyAt p1 off2 val) (n + 2) off2
  setN p2 (n + 2)

/-- The loop of `seePair` (pair.go): scan odd slots `1, 3, …` while
`i < n`; a slot matches when `len(key) == off - ino[i]` (stated
subtraction-free as `len(key) + ino[i] = off`) and the bytes at
`buf[ino[i] : ino[i]+len(key)]` equal the key.  The loop
`for i := 1; i < n; i += 2` runs exactly `n / 2` times, which the first
argument counts down (structurally, so that the kernel can evaluate it). -/
def seePairLoop (p : Buf) (key : List Nat) : Nat → Nat → Nat → Nat
  | 0, _, _ => 0
  | cnt + 1, i, off =>
    let cur := getIno p i
    if key.length + cur = off ∧ extractBuf p cur (cur + key.length) = key then i
    else seePairLoop p key cnt (i + 2) (getIno p (i + 1))

/-- `seePair` (pair.go): offset-table index of the key, 0 if absent. -/
def seePair (p : Buf) (n : Nat) (key : List Nat) : Nat :=
  seePairLoop p key (n / 2) 1 PBLKSIZ

/-- `GetPair` (pair.go).  A found value is returned as a (non-nil) slice
`buf[ino[i+1] : ino[i]]`, hence `some` even when it is empty. -/
def getPair (p : Buf) (key : List Nat) : Datum :=
  let n := getN p
  if n = 0 then Nullitem
  else
    let i := seePair p n key
    if i = 0 then Nullitem
    else some (extractBuf p (getIno p (i + 1)) (getIno p i))

/-- `DupPair` (pair.go). -/
def dupPair (p : Buf) (key : List Nat) : Bool :=
  let n := getN p
  if n = 0 then false else decide (seePair p n key > 0)

/-- `GetNKey` (pair.go): the `num`-th key (1-based).  `num*2 - 1` uses
truncated subtraction; every caller in the source passes `num ≥ 1`. -/
def getNKey (p : Buf) (num : Nat) : Datum :=
  let m := num * 2 - 1
  let n := getN p
  if n = 0 ∨ m > n then Nullitem
  else
    let off := if m > 1 then getIno p (m - 1) else PBLKSIZ
    some (extractBuf p (getIno p m) off)

/-- Go `copy(p[d:], p[s:])` on a single 1024-byte buffer: an overlapping
copy with memmove semantics (the source bytes are read before any are
overwritten), of `min (PBLKSIZ-d) (PBLKSIZ-s)` bytes. -/
def copyWithin (p : Buf) (d s : Nat) : Buf :=
  copyAt p d (extractBuf p s (s + min (PBLKSIZ - d) (PBLKSIZ - s)))

/-- The offset-adjust loop of `DelPair` (pair.go):
`for i < n-1 { setIno(i, getIno(i+2) + uint16(zoo)); i++ }` (the 16-bit
wrap of the sum is performed by `setIno`).  Starting from index `i` the
loop runs exactly `(n-1) - i` times, which the first argument counts
down. -/
def inoShiftLoop (zoo : Nat) : Nat → Buf → Nat → Buf
  | 0, p, _ => p
  | f + 1, p, i => inoShiftLoop zoo f (setIno p i (getIno p (i + 2) + zoo)) (i + 1)

/-- `DelPair` (pair.go).  `zoo = dst - src` and
`m = int(ino[i+1] - ino[n])` are non-negative on every page accepted by
`ChkPage`; on other inputs Go wraps the `uint16` difference where the
model truncates. -/
def delPair (p : Buf) (key : List Nat) : Bool × Buf :=
  let n := getN p
  if n = 0 then (false, p)
  else
    let i := seePair p n key
    if i = 0 then (false, p)
    else
      let p1 :=
        if i < n - 1 then
          let dst := if i = 1 then PBLKSIZ else getIno p (i - 1)
          let src := getIno p (i + 1)
          let zoo := dst - src
          let m := getIno p (i + 1) - getIno p n
          inoShiftLoop zoo ((n - 1) - i) (copyWithin p (dst - m) (src - m)) i
        else p
      (true, setN p1 (getN p1 - 2))

/-- The loop of `SplPage` (pair.go): iterate the odd slots of the saved
original contents `cur`, putting each pair into `np` when
`exHash(key) & sbit != 0` and back into `p` otherwise.  The loop
`for i := 1; n > 0; i += 2 { …; n -= 2 }` runs exactly `⌈n/2⌉` times,
which the first argument counts down. -/
def splPageLoop (cur : Buf) (sbit : Nat) : Nat → Nat → Nat → Buf → Buf → Buf × Buf
  | 0, _, _, p, np => (p, np)
  | cnt + 1, i, off, p, np =>
    let keyOff := getIno cur i
    let valOff := getIno cur (i + 1)
    let key := extractBuf cur keyOff off
    let val := extractBuf cur valOff keyOff
    if hashW key &&& sbit ≠ 0 then
      splPageLoop cur sbit cnt (i + 2) valOff p (putPair np key val)
    else
      splPageLoop cur sbit cnt (i + 2) valOff (putPair p key val) np

/-- `SplPage` (pair.go): the original contents are saved in `cur`, both
buffers are zeroed (`copy(…, make([]byte, PBLKSIZ))`), and the pairs are
redistributed; the result is `(p, newPag)` after the split.  The passed
`np` buffer is zeroed before use, exactly as in the source. -/
def splPage (p np : Buf) (sbit : Nat) : Buf × Buf :=
  let cur := p
  let _ := np
  splPageLoop cur sbit ((getIno cur 0 + 1) / 2) 1 PBLKSIZ zeroBuf zeroBuf

/-- The loop of `ChkPage` (pair.go): walk the odd slots checking that the
offsets descend monotonically; it runs exactly `⌈n/2⌉` times, which the
first argument counts down. -/
def chkPageLoop (p : Buf) : Nat → Nat → Nat → Bool
  | 0, _, _ => true
  | cnt + 1, i, off =>
    let keyOff := getIno p i
    let valOff := getIno p (i + 1)
    if keyOff > off ∨ valOff > off ∨ valOff > keyOff then false
    else chkPageLoop p cnt (i + 2) valOff

/-- `ChkPage` (pair.go).  The Go test `n < 0` cannot fire (`n` is an
`int` converted from a `uint16`). -/
def chkPage (p : Buf) : Bool :=
  let n := getN p
  if n > PBLKSIZ / SHORTSIZE then false
  else if n > 0 then chkPageLoop p ((n + 1) / 2) 1 PBLKSIZ
  else true

/-! ### Abstraction: the pairs stored on a page

`pairsOf` reads the key/value byte ranges of a page in slot order, the
same ranges `SplPage` reads (`key = buf[ino[i] : prev_end]`,
`val = buf[ino[i+1] : ino[i]]`).  It is the abstraction the theorems are
stated against, not a function of the source. -/

/-- The pair-listing loop, shaped exactly like the loop of `SplPage`:
the first argument counts the pairs still to list. -/
def pairsOfLoop (p : Buf) : Nat → Nat → Nat → List (List Nat × List Nat)
  | 0, _, _ => []
  | cnt + 1, i, off =>
    (extractBuf p (getIno p i) off, extractBuf p (getIno p (i + 1)) (getIno p i))
      :: pairsOfLoop p cnt (i + 2) (getIno p (i + 1))

/-- All key/value pairs of a page, in slot order. -/
def pairsOf (p : Buf) : List (List Nat × List Nat) :=
  pairsOfLoop p ((getN p + 1) / 2) 1 PBLKSIZ

/-- Well-formedness of a page, the invariant of spec §3: correct length,
even entry count, `ChkPage` monotonicity, and a non-negative free area
(`(n+1)·SHORTSIZE ≤ ino[n]`, so the offset table and the payload do not
overlap). -/
def wfPage (p : Buf) : Prop :=
  p.length = PBLKSIZ ∧ getN p % 2 = 0 ∧ chkPage p = true ∧
    (getN p = 0 ∨ SHORTSIZE * (getN p + 1) ≤ getIno p (getN p))

instance (p : Buf) : Decidable (wfPage p) := by unfold wfPage; infer_instance

/-! ## The store layer (sdbm.go)

The `DBM` handle carries both files (content function, size, and for the
page file the current seek position), the cursor/cache fields of the Go
struct, and a ghost event trace recording every file access.  File I/O is
modelled error-free, except that the direct `pagf.Read` of `getNext`
consults the oracle `pagErr` (the source distinguishes `io.EOF` from
other errors only there). -/

/-- `StoreFlags` is a Go `int`. -/
abbrev StoreFlags := Int

/-- `StoreREPLACE`. -/
def StoreREPLACE : StoreFlags := 1

/-- `StoreSEEDUPS`. -/
def StoreSEEDUPS : StoreFlags := 2

/-- The errors surfaced by the store (`ErrInvalidArgument`,
`ErrInvalidPage`, `ErrDBMRDOnly`, and a wrapped read `IOError`). -/
inductive Err where
  | invalidArgument
  | invalidPage
  | dbmRdOnly
  | ioRead
deriving DecidableEq

/-- Ghost trace events: one per file access performed by the store.
`pagRead`/`dirRead` stand for a `seekRead` (seek + read), `pagWrite` /
`dirWrite` for a `seekWrite` (seek + write, with the written bytes),
`pagSeek` for the bare `Seek` in `getNext`, and `pagReadAt` for the bare
`Read` in `getNext` (at the recorded position). -/
inductive Ev where
  | pagRead (off : Int)
  | pagWrite (off : Int) (bytes : Buf)
  | pagSeek (off : Int)
  | pagReadAt (pos : Nat)
  | dirRead (off : Int)
  | dirWrite (off : Int) (bytes : Buf)
deriving DecidableEq

/-- Is an event a write to either file? -/
def Ev.isWrite : Ev → Bool
  | .pagWrite _ _ => true
  | .dirWrite _ _ => true
  | _ => false

/-- Is an event a directory-file write? -/
def Ev.isDirWrite : Ev → Bool
  | .dirWrite _ _ => true
  | _ => false

/-- The `DBM` struct (sdbm.go) together with the modelled file states. -/
structure DBM where
  /-- byte content of the `.pag` file (holes and bytes past the end read 0) -/
  pagFile : Nat → Nat
  /-- size in bytes of the `.pag` file -/
  pagSize : Nat
  /-- current seek position of the `.pag` file handle -/
  pagPos : Nat
  /-- error oracle for the bare `Read` in `getNext`: `true` at a position
  means that read fails with a non-EOF error -/
  pagErr : Nat → Bool
  /-- byte content of the `.dir` file -/
  dirFile : Nat → Nat
  /-- size in bytes of the `.dir` file -/
  dirSize : Nat
  /-- `rdonly` -/
  rdonly : Bool
  /-- `maxbno`: size of dirfile in bits -/
  maxbno : Nat
  /-- `curbit`: current bit number -/
  curbit : Nat
  /-- `hmask`: current hash mask -/
  hmask : Nat
  /-- `blkptr`: current block for next key -/
  blkptr : Nat
  /-- `keyptr`: current key for next key -/
  keyptr : Nat
  /-- `pagbno`: current page in pag (−1 when none) -/
  pagbno : Int
  /-- `pag`: page file block buffer -/
  pag : Buf
  /-- `dirbno`: current block in dirbuf (−1 when none) -/
  dirbno : Int
  /-- `dirbuf`: directory file block buffer -/
  dirbuf : Buf
  /-- ghost trace of file accesses -/
  events : List Ev

/-- `offPag` (sdbm.go). -/
def offPag (off : Int) : Int := off * PBLKSIZ

/-- `offDir` (sdbm.go). -/
def offDir (off : Int) : Int := off * DBLKSIZ

/-- Read bytes `off, off+1, …` of a file into a buffer: positions past
the end of the file leave the buffer byte unchanged (Go's `File.Read`
returns only the available bytes and `seekRead` swallows `io.EOF`). -/
def readInto (f : Nat → Nat) (size : Nat) : Buf → Nat → Buf
  | [], _ => []
  | b :: bs, off => (if off < size then f off else b) :: readInto f size bs (off + 1)

/-- Write `bytes` into a file at byte offset `off` (a write past the end
grows the file; the size bump is recorded separately in the state). -/
def writeFn (f : Nat → Nat) (off : Nat) (bytes : List Nat) : Nat → Nat :=
  fun a => if off ≤ a ∧ a < off + bytes.length then bytes.getD (a - off) 0 else f a

/-- `seekRead` on the page file into the page buffer (sdbm.go): seek to
`off`, read up to `PBLKSIZ` bytes; the handle position advances by the
number of bytes actually read. -/
def pagSeekRead (s : DBM) (off : Int) : DBM :=
  { s with pag := readInto s.pagFile s.pagSize s.pag off.toNat,
           pagPos := off.toNat + min PBLKSIZ (s.pagSize - off.toNat),
           events := s.events ++ [Ev.pagRead off] }

/-- `seekWrite` on the page file (sdbm.go). -/
def pagSeekWrite (s : DBM) (off : Int) (bytes : Buf) : DBM :=
  { s with pagFile := writeFn s.pagFile off.toNat bytes,
           pagSize := max s.pagSize (off.toNat + bytes.length),
           pagPos := off.toNat + bytes.length,
           events := s.events ++ [Ev.pagWrite off bytes] }

/-- `seekRead` on the directory file into `dirbuf` (sdbm.go). -/
def dirSeekRead (s : DBM) (off : Int) : DBM :=
  { s with dirbuf := readInto s.dirFile s.dirSize s.dirbuf off.toNat,
           events := s.events ++ [Ev.dirRead off] }

/-- `seekWrite` on the directory file (sdbm.go). -/
def dirSeekWrite (s : DBM) (off : Int) (bytes : Buf) : DBM :=
  { s with dirFile := writeFn s.dirFile off.toNat bytes,
           dirSize := max s.dirSize (off.toNat + bytes.length),
           events := s.events ++ [Ev.dirWrite off bytes] }

/-- `getDBit` (sdbm.go): refresh the directory-block cache if needed,
then test bit `dbit % 8` of byte `(dbit/8) % DBLKSIZ`. -/
def getDBit (s : DBM) (dbit : Nat) : Bool × DBM :=
  let c := dbit / BITSIZ
  let dirb := c / DBLKSIZ
  let s1 :=
    if (dirb : Int) ≠ s.dirbno then
      { dirSeekRead s (offDir (dirb : Int)) with dirbno := (dirb : Int) }
    else s
  (decide (getByte s1.dirbuf (c % DBLKSIZ) &&& (1 <<< (dbit % BITSIZ)) ≠ 0), s1)

/-- `setDBit` (sdbm.go): refresh the cache, set the bit, grow `maxbno`
by one block of bits when `dbit ≥ maxbno`, and write the block back. -/
def setDBit (s : DBM) (dbit : Nat) : DBM :=
  let c := dbit / BITSIZ
  let dirb := c / DBLKSIZ
  let s1 :=
    if (dirb : Int) ≠ s.dirbno then
      { dirSeekRead s (offDir (dirb : Int)) with dirbno := (dirb : Int) }
    else s
  let s2 := { s1 with
    dirbuf := setByte s1.dirbuf (c % DBLKSIZ)
      (getByte s1.dirbuf (c % DBLKSIZ) ||| (1 <<< (dbit % BITSIZ))) }
  let s3 := if s2.maxbno ≤ dbit then { s2 with maxbno := s2.maxbno + DBLKSIZ * BITSIZ }
            else s2
  dirSeekWrite s3 (offDir (dirb : Int)) s3.dirbuf

/-- The binary-trie walk of `getPage` (sdbm.go):
`for dbit < maxbno && getDBit(dbit) { descend; hbit++ }`.  `dbit`
strictly increases every iteration (`2·dbit+1 > dbit`) and the guard
requires `dbit < maxbno`, so the loop runs at most `maxbno` times; the
first argument supplies that much fuel, making the recursion structural. -/
def walkLoop (h : Nat) : Nat → DBM → Nat → Nat → DBM × Nat × Nat
  | 0, s, dbit, hbit => (s, dbit, hbit)
  | fuel + 1, s, dbit, hbit =>
    if dbit < s.maxbno then
      let r := getDBit s dbit
      if r.1 then
        walkLoop h fuel r.2 (if h &&& (1 <<< hbit) ≠ 0 then 2 * dbit + 2 else 2 * dbit + 1)
          (hbit + 1)
      else (r.2, dbit, hbit)
    else (s, dbit, hbit)

/-- `getPage` (sdbm.go): walk the trie, record `curbit`/`hmask`, and read
the page `hash & hmask` unless it is already cached; a page that fails
`ChkPage` yields `ErrInvalidPage` (with the buffer already overwritten
and `pagbno` left stale, as in the source). -/
def getPage (s : DBM) (h : Nat) : Option Err × DBM :=
  let w := walkLoop h s.maxbno s 0 0
  let s1 := { w.1 with curbit := w.2.1, hmask := masksGet w.2.2 }
  let pagb := h &&& s1.hmask
  if (pagb : Int) ≠ s1.pagbno then
    let s2 := pagSeekRead s1 (offPag (pagb : Int))
    if chkPage s2.pag then (none, { s2 with pagbno := (pagb : Int) })
    else (some Err.invalidPage, s2)
  else (none, s1)

/-- `Fetch` (sdbm.go). -/
def Fetch (s : DBM) (key : Datum) : Datum × Option Err × DBM :=
  if bad key then (Nullitem, some Err.invalidArgument, s)
  else
    match getPage s (exHashU key) with
    | (some e, s1) => (Nullitem, some e, s1)
    | (none, s1) => (getPair s1.pag key.bytes, none, s1)

/-- `Delete` (sdbm.go): on a successful `DelPair` the page is written
back at `pagbno·PBLKSIZ`; when `DelPair` reports the key absent, the
function returns `false` with no error and performs no write. -/
def Delete (s : DBM) (key : Datum) : Bool × Option Err × DBM :=
  if bad key then (false, some Err.invalidArgument, s)
  else if s.rdonly then (false, some Err.dbmRdOnly, s)
  else
    match getPage s (exHashU key) with
    | (some e, s1) => (false, some e, s1)
    | (none, s1) =>
      let d := delPair s1.pag key.bytes
      if d.1 then
        let s2 := { s1 with pag := d.2 }
        (true, none, pagSeekWrite s2 (offPag s2.pagbno) s2.pag)
      else (false, none, s1)

/-- One iteration of the `makeRoom` loop up to and including `setDBit`
(sdbm.go): split the page, write one of the two halves (the old page at
`pagbno` when the incoming hash selects the new page, otherwise the new
page at `newp`), and set the directory bit `curbit`. -/
def splitOnce (s : DBM) (h : Nat) : DBM :=
  let sp := splPage s.pag zeroBuf (s.hmask + 1)
  let newp : Nat := (h &&& s.hmask) ||| (s.hmask + 1)
  let s1 := { s with pag := sp.1 }
  let s2 :=
    if h &&& (s.hmask + 1) ≠ 0 then
      let sw := pagSeekWrite s1 (offPag s1.pagbno) s1.pag
      { sw with pagbno := (newp : Int), pag := sp.2 }
    else
      pagSeekWrite s1 (offPag (newp : Int)) sp.2
  setDBit s2 s2.curbit

/-- The tail of a non-fitting `makeRoom` iteration (sdbm.go): update
`curbit` and `hmask` as `getPage` would have, and write the current
(deferred) page out. -/
def deepen (s : DBM) (h : Nat) : DBM :=
  let s1 := { s with
    curbit := if h &&& (s.hmask + 1) ≠ 0 then 2 * s.curbit + 2 else 2 * s.curbit + 1 }
  let s2 := { s1 with hmask := s1.hmask ||| (s1.hmask + 1) }
  pagSeekWrite s2 (offPag s2.pagbno) s2.pag

/-- The `makeRoom` loop (sdbm.go).  The second component of the result
is a ghost count of split attempts actually performed. -/
def makeRoomLoop (h need : Nat) : DBM → Nat → DBM × Nat
  | s, 0 => (s, 0)
  | s, smax + 1 =>
    let s1 := splitOnce s h
    if fitPair s1.pag need then (s1, 1)
    else
      let r := makeRoomLoop h need (deepen s1 h) smax
      (r.1, r.2 + 1)

/-- `makeRoom` (sdbm.go).  Go's `smax := SPLTMAX; for smax--; smax > 0;
smax--` decrements before the first test, so the body runs for
`smax = 9, …, 1`: at most `SPLTMAX - 1` split attempts.  In this
error-free I/O model `makeRoom` always returns without an error —
matching the source's final `return nil` when the loop exhausts without
fitting the pair. -/
def makeRoom (s : DBM) (h need : Nat) : DBM × Nat :=
  makeRoomLoop h need s (SPLTMAX - 1)

/-- The shared tail of `Store` (sdbm.go): split if the pair does not fit,
then `PutPair` and write the page back at `pagbno·PBLKSIZ`. -/
def storeFinish (s : DBM) (h need : Nat) (key val : Datum) : Bool × Option Err × DBM :=
  let s2 := if fitPair s.pag need then s else (makeRoom s h need).1
  let s3 := { s2 with pag := putPair s2.pag key.bytes val.bytes }
  (true, none, pagSeekWrite s3 (offPag s3.pagbno) s3.pag)

/-- `Store` (sdbm.go).  The Go test `need < 0` cannot fire (sizes are
non-negative); `StoreREPLACE` first deletes the key (ignoring the
result), `StoreSEEDUPS` returns success early on a duplicate, any other
flag leaves the page as is. -/
def Store (s : DBM) (key val : Datum) (flags : StoreFlags) : Bool × Option Err × DBM :=
  if bad key then (false, some Err.invalidArgument, s)
  else if s.rdonly then (false, some Err.dbmRdOnly, s)
  else
    let need := key.size + val.size
    if need > PAIRMAX then (false, some Err.invalidArgument, s)
    else
      match getPage s (exHashU key) with
      | (some e, s1) => (false, some e, s1)
      | (none, s1) =>
        if flags = StoreREPLACE then
          storeFinish { s1 with pag := (delPair s1.pag key.bytes).2 }
            (exHashU key) need key val
        else if flags = StoreSEEDUPS ∧ dupPair s1.pag key.bytes then (true, none, s1)
        else storeFinish s1 (exHashU key) need key val

/-- The page-advance section of the `getNext` loop (sdbm.go), from
`db.keyptr = 0` up to just before the `Read`: if the cached page is not
the iteration block, the file is seeked to the next block
(`blkptr` is incremented first, so the seek target is
`(blkptr+1)·PBLKSIZ` in terms of the old `blkptr`); then
`pagbno = blkptr`. -/
def getNextAdvance (s : DBM) : DBM :=
  let s1 := { s with keyptr := 0 }
  let s2 :=
    if s1.pagbno ≠ (s1.blkptr : Int) then
      { s1 with blkptr := s1.blkptr + 1,
                pagPos := (offPag ((s1.blkptr + 1 : Nat) : Int)).toNat,
                events := s1.events ++ [Ev.pagSeek (offPag ((s1.blkptr + 1 : Nat) : Int))] }
    else s1
  { s2 with pagbno := (s2.blkptr : Int) }

/-- The state after the successful bare `Read` in `getNext`: one page is
read from the current position into the page buffer (only the bytes
before end-of-file are transferred) and the position advances by the
number of bytes read. -/
def getNextReadState (s : DBM) : DBM :=
  { s with pag := readInto s.pagFile s.pagSize s.pag s.pagPos,
           pagPos := s.pagPos + min PBLKSIZ (s.pagSize - s.pagPos),
           events := s.events ++ [Ev.pagReadAt s.pagPos] }

/-- The `getNext` loop (sdbm.go).  Per iteration either a key is
returned, or the read fails (error / EOF / bad page), or the position
strictly advances towards the end of the file; the seek can reposition
only on the first iteration (afterwards `pagbno = blkptr`).  The loop
therefore runs at most `pagSize + 2` times; the first argument supplies
that much fuel, making the recursion structural.  (The fuel-exhausted
branch is unreachable from `getNext`.) -/
def getNextLoop : Nat → DBM → Datum × Option Err × DBM
  | 0, s => (Nullitem, none, s)
  | fuel + 1, s =>
    let s0 := { s with keyptr := s.keyptr + 1 }
    match getNKey s0.pag s0.keyptr with
    | some k => (some k, none, s0)
    | none =>
      let s3 := getNextAdvance s0
      if s3.pagErr s3.pagPos then (Nullitem, some Err.ioRead, s3)
      else if s3.pagSize ≤ s3.pagPos then (Nullitem, none, s3)
      else
        let s4 := getNextReadState s3
        if chkPage s4.pag then getNextLoop fuel s4
        else (Nullitem, some Err.invalidPage, s4)

/-- `getNext` (sdbm.go). -/
def getNext (s : DBM) : Datum × Option Err × DBM :=
  getNextLoop (s.pagSize + 2) s

/-- `FirstKey` (sdbm.go): read page 0, reset the cursors, iterate. -/
def FirstKey (s : DBM) : Datum × Option Err × DBM :=
  let s1 := pagSeekRead s (offPag 0)
  getNext { s1 with pagbno := 0, blkptr := 0, keyptr := 0 }

/-- `NextKey` (sdbm.go). -/
def NextKey (s : DBM) : Datum × Option Err × DBM := getNext s

/-- The handle `Prep` builds on a fresh database (both files empty,
opened read-write): `dirbno = 0` because the directory file has size 0,
`pagbno = -1`, `maxbno = 0`, zeroed buffers and cursors. -/
def freshDBM : DBM :=
  { pagFile := fun _ => 0, pagSize := 0, pagPos := 0, pagErr := fun _ => false,
    dirFile := fun _ => 0, dirSize := 0, rdonly := false,
    maxbno := 0, curbit := 0, hmask := 0, blkptr := 0, keyptr := 0,
    pagbno := -1, pag := zeroBuf, dirbno := 0, dirbuf := zeroDir, events := [] }

/-! ## Derived notions used by the statements -/

/-- `true` when a trace fragment contains no write to either file. -/
def noWrites (l : List Ev) : Bool := l.all (fun e => !e.isWrite)

/-- Is the event a page-file write at offset `o`? -/
def Ev.isPagWriteAt (e : Ev) (o : Int) : Bool :=
  match e with
  | .pagWrite o' _ => o' = o
  | _ => false

/-- `ino[n]` with `ino[0]` read as `PBLKSIZ`: the lower end of the used
payload area (the quantity `off` that `FitPair`/`PutPair` start from). -/
def inoLast (p : Buf) : Nat :=
  if getN p > 0 then getIno p (getN p) else PBLKSIZ

/-- Total byte size of a list of pairs. -/
def sizeSum (ps : List (List Nat × List Nat)) : Nat :=
  (ps.map (fun pr => pr.1.length + pr.2.length)).sum

/-- The `off` value after running `cnt` iterations of the page chain
from slot `i` with upper end `off` (the lower end of the listed
payload). -/
def chainEnd (p : Buf) : Nat → Nat → Nat → Nat
  | 0, _, off => off
  | cnt + 1, i, _ => chainEnd p cnt (i + 2) (getIno p (i + 1))

/-- The pure trie walk used to reason about `walkLoop` when every
queried directory bit lies in the cached block 0: same structure as
`walkLoop`, reading bits straight from a fixed buffer. -/
def walkP (h maxbno : Nat) (buf : Buf) : Nat → Nat → Nat → Nat × Nat
  | 0, dbit, hbit => (dbit, hbit)
  | fuel + 1, dbit, hbit =>
    if dbit < maxbno then
      if getByte buf (dbit / BITSIZ % DBLKSIZ) &&& (1 <<< (dbit % BITSIZ)) ≠ 0 then
        walkP h maxbno buf fuel
          (if h &&& (1 <<< hbit) ≠ 0 then 2 * dbit + 2 else 2 * dbit + 1) (hbit + 1)
      else (dbit, hbit)
    else (dbit, hbit)

/-! ## Concrete stores used by counterexamples and witnesses -/

/-- A fresh store after `Store("a","1",0)`. -/
def storeA : DBM := (Store freshDBM (some [97]) (some [49]) 0).2.2

/-- `storeA` after a second `Store("a","2",0)` — the page now holds two
pairs with the same key `"a"`. -/
def storeAA : DBM := (Store storeA (some [97]) (some [50]) 0).2.2

/-- `storeA` after `Store("b","2",0)`. -/
def storeAB : DBM := (Store storeA (some [98]) (some [50]) 0).2.2

/-- `storeAB` after `Store("c","3",0)`: page 0 holds the three pairs
`("a","1")`, `("b","2")`, `("c","3")` in slots 1, 3, 5. -/
def storeABC : DBM := (Store storeAB (some [99]) (some [51]) 0).2.2

/-- A page holding two pairs with the same key `"a"` (values of 50 bytes
each).  Splitting can never separate them, and an incoming pair with
`need = 951` can never fit next to them (`free` stays `912`). -/
def exhaustPage : Buf :=
  putPair (putPair zeroBuf [97] (List.replicate 50 7)) [97] (List.replicate 50 7)

/-- A store positioned on `exhaustPage` (as after a `getPage` on a fresh
store: `curbit = hmask = 0`, `pagbno = 0`). -/
def exhaustDBM : DBM := { freshDBM with pag := exhaustPage, pagbno := 0 }

/-- A page with pairs `("a", 20 bytes)` and `("b", 10 bytes)`.  An
incoming pair for key `"b"` (hash 98, low bit 0) with `need = 980` does
not fit (`free = 982 < 984`), and one split moves the `"a"` pair away
(`free` becomes `1007`), so `makeRoom` runs exactly one iteration
through its `hash & (hmask+1) == 0` branch. -/
def staysPage : Buf :=
  putPair (putPair zeroBuf [97] (List.replicate 20 5)) [98] (List.replicate 10 6)

/-- A store positioned on `staysPage`. -/
def staysDBM : DBM := { freshDBM with pag := staysPage, pagbno := 0 }

/-- A page with the pairs `("a", "1")` and `("b", "2")`.  Splitting on
`sbit = 1` sends `"a"` (hash 97, low bit 1) to the new page and keeps
`"b"` (hash 98, low bit 0) on the old one. -/
def abPage : Buf := putPair (putPair zeroBuf [97] [49]) [98] [50]

/-- A freshly opened store over a two-block page file: block 0 is an
empty page and block 1 holds the single pair `("b", "2")`. -/
def twoPageDBM : DBM :=
  { freshDBM with
    pagFile := fun a =>
      if a < 1024 then 0 else (putPair zeroBuf [98] [50]).getD (a - 1024) 0,
    pagSize := 2048 }

/-! # Theorems -/

/-- C8: the hash is the 64-bit polynomial `h ← 65599·h + b` with
unsigned wrap-around starting from 0, reinterpreted as signed; it is a
deterministic function of the byte sequence (`Hash l` is by definition
the signed reinterpretation of the unsigned accumulator `hashW l`), and
`hash("") = 0`, `hash("a") = 97`,
`hash("abc") = (97·65599² + 98·65599 + 99) mod 2⁶⁴` reinterpreted as
signed. -/
theorem hash_polynomial_spec :
    (∀ l : List Nat, Hash l = int64OfUInt64 (hashW l)) ∧
    (∀ (l : List Nat) (b : Nat), hashW (l ++ [b]) = (b + 65599 * hashW l) % 2 ^ 64) ∧
    Hash [] = 0 ∧ Hash [97] = 97 ∧
    Hash [97, 98, 99] = int64OfUInt64 ((97 * 65599 ^ 2 + 98 * 65599 + 99) % 2 ^ 64) := by
  refine ⟨fun l => rfl, fun l b => ?_, by decide, by decide, by decide⟩
  simp [hashW, List.foldl_append]

/-- C3, counterexample: a zero-length but non-nil key is not rejected.
On a fresh store, `Fetch` with the key `some []` returns no error (in
particular not `ErrInvalidArgument`) and reads the page file (the event
trace is non-empty), and `Store` with that key succeeds; `bad` tests
`key == nil`, not `len(key) == 0`. -/
theorem empty_key_not_rejected_cex :
    (Fetch freshDBM (some [])).2.1 = none ∧
    (Fetch freshDBM (some [])).2.2.events ≠ [] ∧
    (Store freshDBM (some []) (some [52]) 0).1 = true := by decide

/-- C3, amended: for the nil key (`Nullitem`), `Fetch`, `Store` and
`Delete` return `ErrInvalidArgument` and leave the handle — including
the files and the event trace — completely unchanged. -/
theorem nil_key_invalid_argument (s : DBM) (v : Datum) (fl : StoreFlags) :
    Fetch s Nullitem = (Nullitem, some Err.invalidArgument, s) ∧
    Store s Nullitem v fl = (false, some Err.invalidArgument, s) ∧
    Delete s Nullitem = (false, some Err.invalidArgument, s) := by
  refine ⟨?_, ?_, ?_⟩ <;> simp [Fetch, Store, Delete, bad]

/-- The `makeRoom` loop performs at most as many split attempts as it
has fuel. -/
theorem makeRoomLoop_count_le (h need : Nat) :
    ∀ (m : Nat) (s : DBM), (makeRoomLoop h need s m).2 ≤ m := by
  intro m
  induction m with
  | zero => intro s; simp [makeRoomLoop]
  | succ m ih =>
    intro s
    simp only [makeRoomLoop]
    split
    · omega
    · have := ih (deepen (splitOnce s h) h)
      omega

/-- C2: the `makeRoom` loop performs at most `SPLTMAX - 1 = 9` split
attempts — not `SPLTMAX = 10` as the constant's and the function's own
documentation promise (Go's `for smax--; smax > 0; smax--` decrements
before the first test, losing one iteration of C sdbm's
`do … while (--smax)`).  On a store whose page holds two pairs with the
same key and an incoming pair of `need = 951` that can never fit, the
loop performs exactly 9 attempts and returns success (no error) with
the pair still not fitting. -/
theorem makeRoom_nine_attempts :
    (∀ (s : DBM) (h need : Nat), (makeRoom s h need).2 ≤ SPLTMAX - 1) ∧
    SPLTMAX - 1 = 9 ∧
    (makeRoom exhaustDBM (hashW [97]) 951).2 = 9 ∧
    fitPair (makeRoom exhaustDBM (hashW [97]) 951).1.pag 951 = false := by
  refine ⟨fun s h need => makeRoomLoop_count_le h need _ s, by decide, by decide, by decide⟩

/-- C5: deleting the middle pair of a page corrupts it.  On a fresh
store holding `("a","1")`, `("b","2")`, `("c","3")`, `Delete("b")`
returns `true` with no error, but a subsequent `Fetch("b")` returns
`"2"` instead of absent (and the pair `("a","1")` is destroyed):
`DelPair`'s `copy(buf[dst-m:], buf[src-m:])` copies to the end of the
page instead of the `m` bytes the C original's `memmove` moves, shifting
the earlier pairs' bytes without adjusting their offsets. -/
theorem delete_then_fetch_resurrects :
    (Delete storeABC (some [98])).1 = true ∧
    (Delete storeABC (some [98])).2.1 = none ∧
    (Fetch (Delete storeABC (some [98])).2.2 (some [98])).1 = some [50] ∧
    (Fetch (Delete storeABC (some [98])).2.2 (some [97])).1 = Nullitem := by decide

/-- C4, counterexample: in the `makeRoom` branch where the incoming pair
stays on the old page, the directory bit is set before any write of the
old page.  On `staysDBM` the loop runs one iteration through that
branch, and the events before the first directory write contain no page
write at `offPag pagbno` (only the new page at `newp` is written). -/
theorem makeRoom_stays_branch_cex :
    (makeRoom staysDBM (hashW [98]) 980).2 = 1 ∧
    ((makeRoom staysDBM (hashW [98]) 980).1.events.takeWhile
        (fun e => !e.isDirWrite)).any
      (fun e => e.isPagWriteAt (offPag staysDBM.pagbno)) = false ∧
    (makeRoom staysDBM (hashW [98]) 980).1.events.any Ev.isDirWrite = true := by decide

/-- C4, amended: every iteration of the `makeRoom` loop begins (before
`setDBit` issues its directory write) with exactly one page-file write —
the old page (post-split, at `offPag pagbno`) when the incoming hash
selects the new page, and otherwise the new page at `offPag newp`; the
directory write of `setDBit` follows it, and no further page write (in
particular no write of the old page) occurs before the bit is set.  In
the second branch the old page is written only later (at the bottom of a
continuing iteration, or by `Store` after `put_pair`). -/
theorem setDBit_events (s : DBM) (d : Nat) :
    ∃ tl, (setDBit s d).events = s.events ++ tl ∧ tl.any Ev.isDirWrite = true ∧
      (tl.filter Ev.isWrite).all Ev.isDirWrite = true := by
  unfold setDBit dirSeekWrite dirSeekRead
  dsimp only
  split
  · split <;>
      exact ⟨[Ev.dirRead (offDir ((d / BITSIZ / DBLKSIZ : Nat) : Int)),
              Ev.dirWrite (offDir ((d / BITSIZ / DBLKSIZ : Nat) : Int))
                (setByte (readInto s.dirFile s.dirSize s.dirbuf
                    (offDir ((d / BITSIZ / DBLKSIZ : Nat) : Int)).toNat)
                  (d / BITSIZ % DBLKSIZ)
                  (getByte (readInto s.dirFile s.dirSize s.dirbuf
                      (offDir ((d / BITSIZ / DBLKSIZ : Nat) : Int)).toNat)
                    (d / BITSIZ % DBLKSIZ) ||| 1 <<< (d % BITSIZ)))],
        by simp, rfl, rfl⟩
  · split <;>
      exact ⟨[Ev.dirWrite (offDir ((d / BITSIZ / DBLKSIZ : Nat) : Int))
                (setByte s.dirbuf (d / BITSIZ % DBLKSIZ)
                  (getByte s.dirbuf (d / BITSIZ % DBLKSIZ) ||| 1 <<< (d % BITSIZ)))],
        by simp, rfl, rfl⟩

theorem makeRoom_iteration_write_order (s : DBM) (h : Nat) :
    ∃ tl,
      (splitOnce s h).events = s.events ++
        Ev.pagWrite
          (if h &&& (s.hmask + 1) ≠ 0 then offPag s.pagbno
           else offPag (((h &&& s.hmask) ||| (s.hmask + 1) : Nat) : Int))
          (if h &&& (s.hmask + 1) ≠ 0 then (splPage s.pag zeroBuf (s.hmask + 1)).1
           else (splPage s.pag zeroBuf (s.hmask + 1)).2) :: tl ∧
      tl.any Ev.isDirWrite = true ∧
      (tl.filter Ev.isWrite).all Ev.isDirWrite = true := by
  unfold splitOnce
  dsimp only
  by_cases hb : h &&& (s.hmask + 1) ≠ 0
  · simp only [if_pos hb]
    obtain ⟨tl, he, ha, hf⟩ := setDBit_events
      { pagSeekWrite { s with pag := (splPage s.pag zeroBuf (s.hmask + 1)).1 }
          (offPag s.pagbno) (splPage s.pag zeroBuf (s.hmask + 1)).1 with
        pagbno := (((h &&& s.hmask) ||| (s.hmask + 1) : Nat) : Int),
        pag := (splPage s.pag zeroBuf (s.hmask + 1)).2 }
      (pagSeekWrite { s with pag := (splPage s.pag zeroBuf (s.hmask + 1)).1 }
          (offPag s.pagbno) (splPage s.pag zeroBuf (s.hmask + 1)).1).curbit
    refine ⟨tl, ?_, ha, hf⟩
    rw [he]
    simp [pagSeekWrite]
  · simp only [if_neg hb]
    obtain ⟨tl, he, ha, hf⟩ := setDBit_events
      (pagSeekWrite { s with pag := (splPage s.pag zeroBuf (s.hmask + 1)).1 }
        (offPag (((h &&& s.hmask) ||| (s.hmask + 1) : Nat) : Int))
        (splPage s.pag zeroBuf (s.hmask + 1)).2)
      (pagSeekWrite { s with pag := (splPage s.pag zeroBuf (s.hmask + 1)).1 }
        (offPag (((h &&& s.hmask) ||| (s.hmask + 1) : Nat) : Int))
        (splPage s.pag zeroBuf (s.hmask + 1)).2).curbit
    refine ⟨tl, ?_, ha, hf⟩
    rw [he]
    simp [pagSeekWrite]

/-- C6: in the pass of the `getNext` loop that exhausts the current
page while `pagbno = blkptr` (ordinary sequential iteration, here the
very first pass of `FirstKey` on a two-page database whose page 0 is
empty and whose page 1 holds `("b","2")`), the Go code does **not**
perform the claimed unconditional cursor update "`blkptr += 1`, then
`pagbno = blkptr`": the increment sits inside the `pagbno != blkptr`
branch, so both stay 0 even though the next page (block 1) is read into
the buffer and its key is returned.  The stale cache is observable: a
`Fetch` of `"b"` (which hashes to page 0 under `hmask = 0`) takes a
false cache hit on the buffered block-1 content and returns `"2"`,
while the same `Fetch` with the cache invalidated re-reads page 0 and
correctly reports the key absent. -/
theorem getNext_stale_cursor_bug :
    (FirstKey twoPageDBM).1 = some [98] ∧
    (FirstKey twoPageDBM).2.1 = none ∧
    (FirstKey twoPageDBM).2.2.blkptr = 0 ∧
    (FirstKey twoPageDBM).2.2.pagbno = 0 ∧
    (Fetch (FirstKey twoPageDBM).2.2 (some [98])).1 = some [50] ∧
    (Fetch { (FirstKey twoPageDBM).2.2 with pagbno := -1 } (some [98])).1
      = none := by
  decide

/-- `getDBit` can only refresh the directory cache: every other field of
the handle and both files are untouched, and the trace grows by reads
only. -/
theorem getDBit_frame (s : DBM) (d : Nat) :
    ((getDBit s d).2.pagFile = s.pagFile ∧ (getDBit s d).2.pagSize = s.pagSize ∧
     (getDBit s d).2.pagPos = s.pagPos ∧ (getDBit s d).2.pagErr = s.pagErr ∧
     (getDBit s d).2.pag = s.pag ∧ (getDBit s d).2.pagbno = s.pagbno ∧
     (getDBit s d).2.rdonly = s.rdonly ∧ (getDBit s d).2.maxbno = s.maxbno ∧
     (getDBit s d).2.curbit = s.curbit ∧ (getDBit s d).2.hmask = s.hmask ∧
     (getDBit s d).2.blkptr = s.blkptr ∧ (getDBit s d).2.keyptr = s.keyptr ∧
     (getDBit s d).2.dirFile = s.dirFile ∧ (getDBit s d).2.dirSize = s.dirSize) ∧
    ∃ tl, (getDBit s d).2.events = s.events ++ tl ∧ noWrites tl = true := by
  unfold getDBit dirSeekRead
  dsimp only
  split
  · exact ⟨⟨rfl, rfl, rfl, rfl, rfl, rfl, rfl, rfl, rfl, rfl, rfl, rfl, rfl, rfl⟩,
      ⟨[Ev.dirRead (offDir (↑(d / BITSIZ / DBLKSIZ) : Int))], rfl, rfl⟩⟩
  · exact ⟨⟨rfl, rfl, rfl, rfl, rfl, rfl, rfl, rfl, rfl, rfl, rfl, rfl, rfl, rfl⟩,
      ⟨[], by simp, rfl⟩⟩

/-- The trie walk can only refresh the directory cache: every other
field of the handle and both files are untouched, and the trace grows by
reads only. -/
theorem walkLoop_frame (h : Nat) :
    ∀ (fuel : Nat) (s : DBM) (dbit hbit : Nat),
    ((walkLoop h fuel s dbit hbit).1.pagFile = s.pagFile ∧
     (walkLoop h fuel s dbit hbit).1.pagSize = s.pagSize ∧
     (walkLoop h fuel s dbit hbit).1.pagPos = s.pagPos ∧
     (walkLoop h fuel s dbit hbit).1.pagErr = s.pagErr ∧
     (walkLoop h fuel s dbit hbit).1.pag = s.pag ∧
     (walkLoop h fuel s dbit hbit).1.pagbno = s.pagbno ∧
     (walkLoop h fuel s dbit hbit).1.rdonly = s.rdonly ∧
     (walkLoop h fuel s dbit hbit).1.maxbno = s.maxbno ∧
     (walkLoop h fuel s dbit hbit).1.curbit = s.curbit ∧
     (walkLoop h fuel s dbit hbit).1.hmask = s.hmask ∧
     (walkLoop h fuel s dbit hbit).1.blkptr = s.blkptr ∧
     (walkLoop h fuel s dbit hbit).1.keyptr = s.keyptr ∧
     (walkLoop h fuel s dbit hbit).1.dirFile = s.dirFile ∧
     (walkLoop h fuel s dbit hbit).1.dirSize = s.dirSize) ∧
    ∃ tl, (walkLoop h fuel s dbit hbit).1.events = s.events ++ tl ∧ noWrites tl = true := by
  intro fuel
  induction fuel with
  | zero =>
    intro s dbit hbit
    exact ⟨⟨rfl, rfl, rfl, rfl, rfl, rfl, rfl, rfl, rfl, rfl, rfl, rfl, rfl, rfl⟩,
      ⟨[], by simp [walkLoop], by simp [walkLoop, noWrites]⟩⟩
  | succ fuel ih =>
    intro s dbit hbit
    rw [walkLoop]
    dsimp only
    by_cases hdm : dbit < s.maxbno
    · rw [if_pos hdm]
      obtain ⟨⟨g1, g2, g3, g4, g5, g6, g7, g8, g9, g10, g11, g12, g13, g14⟩, tg, hge, hgw⟩ :=
        getDBit_frame s dbit
      by_cases hr : (getDBit s dbit).1 = true
      · rw [if_pos hr]
        obtain ⟨⟨w1, w2, w3, w4, w5, w6, w7, w8, w9, w10, w11, w12, w13, w14⟩, tw, hwe, hww⟩ :=
          ih (getDBit s dbit).2
            (if h &&& (1 <<< hbit) ≠ 0 then 2 * dbit + 2 else 2 * dbit + 1) (hbit + 1)
        refine ⟨⟨w1.trans g1, w2.trans g2, w3.trans g3, w4.trans g4, w5.trans g5,
          w6.trans g6, w7.trans g7, w8.trans g8, w9.trans g9, w10.trans g10,
          w11.trans g11, w12.trans g12, w13.trans g13, w14.trans g14⟩,
          tg ++ tw, ?_, ?_⟩
        · rw [hwe, hge, List.append_assoc]
        · simp only [noWrites, List.all_append, Bool.and_eq_true]
          exact ⟨hgw, hww⟩
      · rw [if_neg hr]
        exact ⟨⟨g1, g2, g3, g4, g5, g6, g7, g8, g9, g10, g11, g12, g13, g14⟩, tg, hge, hgw⟩
    · rw [if_neg hdm]
      exact ⟨⟨rfl, rfl, rfl, rfl, rfl, rfl, rfl, rfl, rfl, rfl, rfl, rfl, rfl, rfl⟩,
        ⟨[], by simp, rfl⟩⟩

/-- `getPage` can only change the cache fields (`curbit`, `hmask`, the
page buffer and `pagbno`, the directory buffer and `dirbno`) and the
page-file seek position: both files, the size fields, `rdonly`,
`maxbno` and the iteration cursors are untouched, and the trace grows by
reads only — in the success and in the invalid-page case alike. -/
theorem getPage_frame (s : DBM) (h : Nat) :
    ((getPage s h).2.pagFile = s.pagFile ∧ (getPage s h).2.pagSize = s.pagSize ∧
     (getPage s h).2.pagErr = s.pagErr ∧
     (getPage s h).2.rdonly = s.rdonly ∧ (getPage s h).2.maxbno = s.maxbno ∧
     (getPage s h).2.blkptr = s.blkptr ∧ (getPage s h).2.keyptr = s.keyptr ∧
     (getPage s h).2.dirFile = s.dirFile ∧ (getPage s h).2.dirSize = s.dirSize) ∧
    ∃ tl, (getPage s h).2.events = s.events ++ tl ∧ noWrites tl = true := by
  obtain ⟨⟨w1, w2, w3, w4, w5, w6, w7, w8, w9, w10, w11, w12, w13, w14⟩, tw, hwe, hww⟩ :=
    walkLoop_frame h s.maxbno s 0 0
  unfold getPage pagSeekRead
  dsimp only
  split
  · split
    · exact ⟨⟨w1, w2, w4, w7, w8, w11, w12, w13, w14⟩,
        tw ++ [Ev.pagRead (offPag
          ((h &&& masksGet (walkLoop h s.maxbno s 0 0).2.2 : Nat) : Int))],
        by simp [hwe], by simp_all [noWrites, Ev.isWrite]⟩
    · exact ⟨⟨w1, w2, w4, w7, w8, w11, w12, w13, w14⟩,
        tw ++ [Ev.pagRead (offPag
          ((h &&& masksGet (walkLoop h s.maxbno s 0 0).2.2 : Nat) : Int))],
        by simp [hwe], by simp_all [noWrites, Ev.isWrite]⟩
  · exact ⟨⟨w1, w2, w4, w7, w8, w11, w12, w13, w14⟩, tw, by simp [hwe], hww⟩

/-- C10: `Fetch` never writes to the page file or the directory file.
Whatever the key and the state, after a `Fetch` both files are
byte-identical to before (content functions and sizes unchanged), the
non-cache handle fields `rdonly`, `maxbno`, `blkptr`, `keyptr` and the
error oracle are unchanged, and the appended trace contains no write
event — only the cache fields (`curbit`, `hmask`, `pag`/`pagbno`,
`dirbuf`/`dirbno`) and the page-file seek position may change. -/
theorem fetch_never_writes (s : DBM) (key : Datum) :
    (Fetch s key).2.2.pagFile = s.pagFile ∧ (Fetch s key).2.2.pagSize = s.pagSize ∧
    (Fetch s key).2.2.dirFile = s.dirFile ∧ (Fetch s key).2.2.dirSize = s.dirSize ∧
    (Fetch s key).2.2.rdonly = s.rdonly ∧ (Fetch s key).2.2.maxbno = s.maxbno ∧
    (Fetch s key).2.2.blkptr = s.blkptr ∧ (Fetch s key).2.2.keyptr = s.keyptr ∧
    (Fetch s key).2.2.pagErr = s.pagErr ∧
    ∃ tl, (Fetch s key).2.2.events = s.events ++ tl ∧ noWrites tl = true := by
  obtain ⟨⟨g1, g2, g3, g4, g5, g6, g7, g8, g9⟩, tg, hge, hgw⟩ :=
    getPage_frame s (exHashU key)
  unfold Fetch
  split
  · exact ⟨rfl, rfl, rfl, rfl, rfl, rfl, rfl, rfl, rfl, [], by simp, rfl⟩
  · split <;> rename_i heq <;>
    · have h2 : (getPage s (exHashU key)).2 = _ := congrArg Prod.snd heq
      simp only [h2] at g1 g2 g3 g4 g5 g6 g7 g8 g9 hge
      exact ⟨g1, g2, g8, g9, g4, g5, g6, g7, g3, tg, hge, hgw⟩

/-! ## Byte-level lemmas about the buffer primitives -/

theorem getByte_default (p : Buf) (j : Nat) (hj : p.length ≤ j) : getByte p j = 0 := by
  unfold getByte
  rw [List.getD_eq_getElem?_getD, List.getElem?_eq_none hj]
  rfl

theorem getD_eq_getByte (p : Buf) (j : Nat) (hj : j < p.length) : p.getD j 0 = p[j] := by
  rw [List.getD_eq_getElem?_getD, List.getElem?_eq_getElem hj]
  rfl

theorem buf_ext (l₁ l₂ : Buf) (hl : l₁.length = l₂.length)
    (h : ∀ j, j < l₁.length → getByte l₁ j = getByte l₂ j) : l₁ = l₂ := by
  refine List.ext_getElem? fun n => ?_
  by_cases hn : n < l₁.length
  · have hv := h n hn
    unfold getByte at hv
    rw [getD_eq_getByte _ _ hn, getD_eq_getByte _ _ (hl ▸ hn)] at hv
    rw [List.getElem?_eq_getElem hn, List.getElem?_eq_getElem (hl ▸ hn), hv]
  · rw [List.getElem?_eq_none (by omega), List.getElem?_eq_none (by omega)]

theorem length_setByte (p : Buf) (i v : Nat) : (setByte p i v).length = p.length :=
  List.length_set ..

theorem getByte_setByte (p : Buf) (i v j : Nat) :
    getByte (setByte p i v) j = if i = j ∧ j < p.length then v else getByte p j := by
  unfold getByte setByte
  by_cases hij : i = j
  · subst hij
    by_cases hj : i < p.length
    · simp [List.getD_eq_getElem?_getD, List.getElem?_set_eq_of_lt _ hj, hj]
    · rw [List.set_eq_of_length_le (by omega)]
      simp [hj]
  · simp [List.getD_eq_getElem?_getD, List.getElem?_set_ne hij, hij]

theorem length_copyAt (src : List Nat) : ∀ (p : Buf) (off : Nat),
    (copyAt p off src).length = p.length := by
  induction src with
  | nil => intro p off; rfl
  | cons b bs ih =>
    intro p off
    show (copyAt (p.set off b) (off + 1) bs).length = _
    rw [ih, List.length_set]

theorem getByte_copyAt (src : List Nat) : ∀ (p : Buf) (off j : Nat),
    getByte (copyAt p off src) j =
      if off ≤ j ∧ j < off + src.length ∧ j < p.length then src.getD (j - off) 0
      else getByte p j := by
  induction src with
  | nil =>
    intro p off j
    have hc : ¬ (off ≤ j ∧ j < off + ([] : List Nat).length ∧ j < p.length) := by
      simp only [List.length_nil]
      omega
    rw [if_neg hc]
    rfl
  | cons b bs ih =>
    intro p off j
    show getByte (copyAt (p.set off b) (off + 1) bs) j = _
    rw [ih, List.length_set]
    by_cases hj : j < p.length
    · by_cases hoff : off = j
      · subst hoff
        have h1 : ¬ (off + 1 ≤ off) := by omega
        simp only [h1, false_and, if_false]
        rw [show getByte (p.set off b) off = getByte (setByte p off b) off from rfl,
          getByte_setByte]
        simp [hj]
      · by_cases hrange : off + 1 ≤ j ∧ j < off + 1 + bs.length
        · have h1 : (off + 1 ≤ j ∧ j < off + 1 + bs.length ∧ j < p.length) := ⟨hrange.1, hrange.2, hj⟩
          have h2 : (off ≤ j ∧ j < off + (b :: bs).length ∧ j < p.length) := by
            simp only [List.length_cons]; omega
          simp only [h1, and_true, if_true, h2, if_pos]
          have : j - off = (j - (off + 1)) + 1 := by omega
          rw [this]
          rfl
        · have h1 : ¬ (off + 1 ≤ j ∧ j < off + 1 + bs.length ∧ j < p.length) := by
            intro hc; exact hrange ⟨hc.1, hc.2.1⟩
          have h2 : ¬ (off ≤ j ∧ j < off + (b :: bs).length ∧ j < p.length) := by
            simp only [List.length_cons]; omega
          simp only [h1, if_false, h2]
          rw [show getByte (p.set off b) j = getByte (setByte p off b) j from rfl,
            getByte_setByte]
          simp [hoff]
    · have h1 : ¬ (off + 1 ≤ j ∧ j < off + 1 + bs.length ∧ j < p.length) := by omega
      have h2 : ¬ (off ≤ j ∧ j < off + (b :: bs).length ∧ j < p.length) := by omega
      simp only [h1, if_false, h2]
      rw [show getByte (p.set off b) j = getByte (setByte p off b) j from rfl,
        getByte_setByte]
      simp
      omega

theorem length_extractBuf (p : Buf) (a b : Nat) :
    (extractBuf p a b).length = min b p.length - a := by
  simp [extractBuf]

theorem getD_extractBuf (p : Buf) (a b t : Nat) :
    (extractBuf p a b).getD t 0 = if a + t < b then getByte p (a + t) else 0 := by
  unfold extractBuf getByte
  rw [List.getD_eq_getElem?_getD, List.getElem?_drop, List.getElem?_take,
    List.getD_eq_getElem?_getD]
  by_cases h : a + t < b
  · simp [h]
  · simp [h]

theorem extractBuf_congr (p q : Buf) (a b : Nat) (hl : p.length = q.length)
    (h : ∀ j, a ≤ j → j < b → getByte p j = getByte q j) :
    extractBuf p a b = extractBuf q a b := by
  refine buf_ext _ _ (by rw [length_extractBuf, length_extractBuf, hl]) fun j hj => ?_
  rw [length_extractBuf] at hj
  show (extractBuf p a b).getD j 0 = (extractBuf q a b).getD j 0
  rw [getD_extractBuf, getD_extractBuf]
  by_cases hab : a + j < b
  · rw [if_pos hab, if_pos hab, h _ (by omega) hab]
  · rw [if_neg hab, if_neg hab]

theorem length_setIno (p : Buf) (i v : Nat) : (setIno p i v).length = p.length := by
  unfold setIno
  rw [length_setByte, length_setByte]

theorem getByte_setIno_ne (p : Buf) (i v j : Nat) (h1 : j ≠ 2 * i) (h2 : j ≠ 2 * i + 1) :
    getByte (setIno p i v) j = getByte p j := by
  unfold setIno
  rw [getByte_setByte, if_neg (fun hc => h2 hc.1.symm),
    getByte_setByte, if_neg (fun hc => h1 hc.1.symm)]

theorem getIno_setIno (p : Buf) (i v : Nat) (h : 2 * i + 1 < p.length) :
    getIno (setIno p i v) i = v % 65536 := by
  have hb1 : getByte (setByte (setByte p (2 * i) (v % 256)) (2 * i + 1) (v / 256 % 256))
      (2 * i) = v % 256 := by
    rw [getByte_setByte, if_neg (by omega), getByte_setByte,
      if_pos ⟨rfl, by omega⟩]
  have hb2 : getByte (setByte (setByte p (2 * i) (v % 256)) (2 * i + 1) (v / 256 % 256))
      (2 * i + 1) = v / 256 % 256 := by
    rw [getByte_setByte, if_pos ⟨rfl, by rw [length_setByte]; exact h⟩]
  unfold getIno setIno
  rw [hb1, hb2]
  omega

theorem getIno_setIno_self (p : Buf) (i v : Nat) (h : 2 * i + 1 < p.length)
    (hv : v < 65536) : getIno (setIno p i v) i = v := by
  rw [getIno_setIno p i v h, Nat.mod_eq_of_lt hv]

theorem getIno_congr (p q : Buf) (i : Nat) (h1 : getByte p (2 * i) = getByte q (2 * i))
    (h2 : getByte p (2 * i + 1) = getByte q (2 * i + 1)) : getIno p i = getIno q i := by
  unfold getIno
  rw [h1, h2]

/-! ## Lemmas about the slot chain of a page

`chkPageLoop`, `pairsOfLoop` and `chainEnd` all walk the same chain of
odd slots; the lemmas below unfold one step, split a walk in two,
telescope the payload sizes, and show the walk only depends on the bytes
it reads. -/

theorem chkPageLoop_succ (p : Buf) (cnt i off : Nat) :
    chkPageLoop p (cnt + 1) i off =
      if getIno p i > off ∨ getIno p (i + 1) > off ∨ getIno p (i + 1) > getIno p i
      then false else chkPageLoop p cnt (i + 2) (getIno p (i + 1)) := rfl

theorem pairsOfLoop_succ (p : Buf) (cnt i off : Nat) :
    pairsOfLoop p (cnt + 1) i off =
      (extractBuf p (getIno p i) off, extractBuf p (getIno p (i + 1)) (getIno p i))
        :: pairsOfLoop p cnt (i + 2) (getIno p (i + 1)) := rfl

theorem chainEnd_succ (p : Buf) (cnt i off : Nat) :
    chainEnd p (cnt + 1) i off = chainEnd p cnt (i + 2) (getIno p (i + 1)) := rfl

theorem length_pairsOfLoop (p : Buf) : ∀ (cnt i off : Nat),
    (pairsOfLoop p cnt i off).length = cnt := by
  intro cnt
  induction cnt with
  | zero => intro i off; rfl
  | succ cnt ih =>
    intro i off
    rw [pairsOfLoop_succ, List.length_cons, ih]

theorem chainEnd_le (p : Buf) : ∀ (cnt i off : Nat),
    chkPageLoop p cnt i off = true → chainEnd p cnt i off ≤ off := by
  intro cnt
  induction cnt with
  | zero => intro i off _; exact Nat.le_refl off
  | succ cnt ih =>
    intro i off hchk
    rw [chkPageLoop_succ] at hchk
    by_cases hc : getIno p i > off ∨ getIno p (i + 1) > off ∨ getIno p (i + 1) > getIno p i
    · rw [if_pos hc] at hchk; cases hchk
    · rw [if_neg hc] at hchk
      push_neg at hc
      rw [chainEnd_succ]
      exact Nat.le_trans (ih _ _ hchk) hc.2.1

theorem chainEnd_add (p : Buf) (a : Nat) : ∀ (b i off : Nat),
    chainEnd p (a + b) i off = chainEnd p b (i + 2 * a) (chainEnd p a i off) := by
  induction a with
  | zero =>
    intro b i off
    rw [Nat.zero_add, show i + 2 * 0 = i by omega]
    rfl
  | succ a ih =>
    intro b i off
    have h1 : a + 1 + b = (a + b) + 1 := by omega
    rw [h1, chainEnd_succ, chainEnd_succ, ih]
    have h2 : i + 2 + 2 * a = i + 2 * (a + 1) := by omega
    rw [h2]

theorem chkPageLoop_add (p : Buf) (a : Nat) : ∀ (b i off : Nat),
    chkPageLoop p (a + b) i off =
      (chkPageLoop p a i off && chkPageLoop p b (i + 2 * a) (chainEnd p a i off)) := by
  induction a with
  | zero =>
    intro b i off
    rw [Nat.zero_add, show i + 2 * 0 = i by omega]
    rfl
  | succ a ih =>
    intro b i off
    have h1 : a + 1 + b = (a + b) + 1 := by omega
    rw [h1, chkPageLoop_succ, chkPageLoop_succ]
    by_cases hc : getIno p i > off ∨ getIno p (i + 1) > off ∨ getIno p (i + 1) > getIno p i
    · rw [if_pos hc, if_pos hc]; rfl
    · rw [if_neg hc, if_neg hc, ih, chainEnd_succ]
      have h2 : i + 2 + 2 * a = i + 2 * (a + 1) := by omega
      rw [h2]

theorem pairsOfLoop_add (p : Buf) (a : Nat) : ∀ (b i off : Nat),
    pairsOfLoop p (a + b) i off =
      pairsOfLoop p a i off ++ pairsOfLoop p b (i + 2 * a) (chainEnd p a i off) := by
  induction a with
  | zero =>
    intro b i off
    rw [Nat.zero_add, show i + 2 * 0 = i by omega]
    rfl
  | succ a ih =>
    intro b i off
    have h1 : a + 1 + b = (a + b) + 1 := by omega
    rw [h1, pairsOfLoop_succ, pairsOfLoop_succ, ih, chainEnd_succ]
    have h2 : i + 2 + 2 * a = i + 2 * (a + 1) := by omega
    rw [h2]
    rfl

theorem chainEnd_closed (p : Buf) : ∀ (cnt i off : Nat),
    chainEnd p (cnt + 1) i off = getIno p (i + 2 * cnt + 1) := by
  intro cnt
  induction cnt with
  | zero => intro i off; rfl
  | succ cnt ih =>
    intro i off
    rw [show cnt + 1 + 1 = (cnt + 1) + 1 from rfl, chainEnd_succ, ih]
    have h2 : i + 2 + 2 * cnt + 1 = i + 2 * (cnt + 1) + 1 := by omega
    rw [h2]

theorem sizeSum_nil : sizeSum [] = 0 := rfl

theorem sizeSum_cons (pr : List Nat × List Nat) (l : List (List Nat × List Nat)) :
    sizeSum (pr :: l) = pr.1.length + pr.2.length + sizeSum l := by
  unfold sizeSum
  rw [List.map_cons, List.sum_cons]

theorem sizeSum_append (l₁ l₂ : List (List Nat × List Nat)) :
    sizeSum (l₁ ++ l₂) = sizeSum l₁ + sizeSum l₂ := by
  unfold sizeSum
  rw [List.map_append, List.sum_append]

theorem sizeSum_chain (p : Buf) : ∀ (cnt i off : Nat),
    chkPageLoop p cnt i off = true → off ≤ p.length →
    sizeSum (pairsOfLoop p cnt i off) + chainEnd p cnt i off = off := by
  intro cnt
  induction cnt with
  | zero => intro i off _ _; simp [pairsOfLoop, chainEnd, sizeSum_nil]
  | succ cnt ih =>
    intro i off hchk hoff
    rw [chkPageLoop_succ] at hchk
    by_cases hc : getIno p i > off ∨ getIno p (i + 1) > off ∨ getIno p (i + 1) > getIno p i
    · rw [if_pos hc] at hchk; cases hchk
    · rw [if_neg hc] at hchk
      push_neg at hc
      have hsub := ih (i + 2) (getIno p (i + 1)) hchk (Nat.le_trans hc.2.1 hoff)
      rw [pairsOfLoop_succ, sizeSum_cons, chainEnd_succ]
      have hk : (extractBuf p (getIno p i) off).length = off - getIno p i := by
        rw [length_extractBuf]; omega
      have hv : (extractBuf p (getIno p (i + 1)) (getIno p i)).length
          = getIno p i - getIno p (i + 1) := by
        rw [length_extractBuf]; omega
      have hce : chainEnd p cnt (i + 2) (getIno p (i + 1)) ≤ getIno p (i + 1) :=
        chainEnd_le p cnt (i + 2) (getIno p (i + 1)) hchk
      dsimp only
      rw [hk, hv]
      omega

theorem chain_congr (p q : Buf) (hl : p.length = q.length) : ∀ (cnt i off : Nat),
    chkPageLoop p cnt i off = true →
    (∀ j, 2 * i ≤ j → j < 2 * (i + 2 * cnt) → getByte p j = getByte q j) →
    (∀ j, chainEnd p cnt i off ≤ j → j < off → getByte p j = getByte q j) →
    chkPageLoop q cnt i off = true ∧ chainEnd q cnt i off = chainEnd p cnt i off ∧
      pairsOfLoop q cnt i off = pairsOfLoop p cnt i off := by
  intro cnt
  induction cnt with
  | zero => intro i off _ _ _; exact ⟨rfl, rfl, rfl⟩
  | succ cnt ih =>
    intro i off hchk htab hpay
    have hkey : getIno q i = getIno p i :=
      (getIno_congr p q i (htab _ (by omega) (by omega)) (htab _ (by omega) (by omega))).symm
    have hval : getIno q (i + 1) = getIno p (i + 1) := by
      refine (getIno_congr p q (i + 1) ?_ ?_).symm
      · exact htab _ (by omega) (by omega)
      · exact htab _ (by omega) (by omega)
    rw [chkPageLoop_succ] at hchk
    by_cases hc : getIno p i > off ∨ getIno p (i + 1) > off ∨ getIno p (i + 1) > getIno p i
    · rw [if_pos hc] at hchk; cases hchk
    rw [if_neg hc] at hchk
    push_neg at hc
    have hce : chainEnd p (cnt + 1) i off = chainEnd p cnt (i + 2) (getIno p (i + 1)) := rfl
    have hle : chainEnd p cnt (i + 2) (getIno p (i + 1)) ≤ getIno p (i + 1) :=
      chainEnd_le p cnt (i + 2) (getIno p (i + 1)) hchk
    obtain ⟨ihchk, ihce, ihpairs⟩ := ih (i + 2) (getIno p (i + 1)) hchk
      (fun j h1 h2 => htab j (by omega) (by omega))
      (fun j h1 h2 => hpay j (by rw [hce]; exact h1)
        (Nat.lt_of_lt_of_le h2 hc.2.1))
    refine ⟨?_, ?_, ?_⟩
    · rw [chkPageLoop_succ, hkey, hval, if_neg (by omega), ihchk]
    · rw [chainEnd_succ, hval, ihce, hce]
    · rw [pairsOfLoop_succ, pairsOfLoop_succ, hkey, hval, ihpairs]
      have hek : extractBuf q (getIno p i) off = extractBuf p (getIno p i) off := by
        refine (extractBuf_congr p q _ _ hl fun j hj1 hj2 => ?_).symm
        exact hpay j (by rw [hce]; omega) hj2
      have hev : extractBuf q (getIno p (i + 1)) (getIno p i)
          = extractBuf p (getIno p (i + 1)) (getIno p i) := by
        refine (extractBuf_congr p q _ _ hl fun j hj1 hj2 => ?_).symm
        exact hpay j (by rw [hce]; omega) (by omega)
      rw [hek, hev]

/-! ## The effect of `putPair` on the bytes of a page -/

theorem getByte_setN_ne (q : Buf) (m j : Nat) (hj : 2 ≤ j) :
    getByte (setN q m) j = getByte q j :=
  getByte_setIno_ne q 0 m j (by omega) (by omega)

theorem getIno_setN_ne (q : Buf) (m i : Nat) (hi : 1 ≤ i) :
    getIno (setN q m) i = getIno q i :=
  getIno_congr _ q i (getByte_setN_ne q m _ (by omega)) (getByte_setN_ne q m _ (by omega))

theorem getIno_setIno_ne (q : Buf) (a v b : Nat) (hab : a ≠ b) :
    getIno (setIno q a v) b = getIno q b :=
  getIno_congr _ q b (getByte_setIno_ne q a v _ (by omega) (by omega))
    (getByte_setIno_ne q a v _ (by omega) (by omega))

theorem getByte_copyAt_out (src : List Nat) (q : Buf) (off j : Nat)
    (h : j < off ∨ off + src.length ≤ j) :
    getByte (copyAt q off src) j = getByte q j := by
  rw [getByte_copyAt, if_neg (by omega)]

theorem getByte_copyAt_in (src : List Nat) (q : Buf) (off t : Nat)
    (ht : t < src.length) (hq : off + t < q.length) :
    getByte (copyAt q off src) (off + t) = src.getD t 0 := by
  rw [getByte_copyAt, if_pos ⟨by omega, by omega, hq⟩,
    show off + t - off = t by omega]

theorem getIno_copyAt_out (src : List Nat) (q : Buf) (off i : Nat)
    (h : 2 * i + 1 < off ∨ off + src.length ≤ 2 * i) :
    getIno (copyAt q off src) i = getIno q i :=
  getIno_congr _ q i (getByte_copyAt_out src q off _ (by omega))
    (getByte_copyAt_out src q off _ (by omega))

theorem fitPair_iff (p : Buf) (need : Nat) :
    fitPair p need = true ↔ need + 4 + (getN p + 1) * 2 ≤ inoLast p := by
  unfold fitPair inoLast SHORTSIZE
  rw [decide_eq_true_eq]
  constructor <;> intro h <;> omega

/-- Everything `putPair` does to a page with enough free space: the old
offset table and the old payload are untouched, the entry count becomes
`n+2`, the two new table entries point at the key and value bytes just
below the old payload, and those bytes are the key and the value. -/
theorem putPair_bytes (p : Buf) (k v : List Nat)
    (hlen : p.length = PBLKSIZ)
    (hoff : inoLast p ≤ PBLKSIZ)
    (hfree : k.length + v.length + 4 + (getN p + 1) * 2 ≤ inoLast p) :
    (∀ j, 2 ≤ j → j < 2 * (getN p + 1) → getByte (putPair p k v) j = getByte p j) ∧
    (∀ j, inoLast p ≤ j → getByte (putPair p k v) j = getByte p j) ∧
    (∀ i0, 1 ≤ i0 → i0 ≤ getN p → getIno (putPair p k v) i0 = getIno p i0) ∧
    getN (putPair p k v) = getN p + 2 ∧
    getIno (putPair p k v) (getN p + 1) = inoLast p - k.length ∧
    getIno (putPair p k v) (getN p + 2) = inoLast p - k.length - v.length ∧
    (∀ t, t < k.length →
      getByte (putPair p k v) (inoLast p - k.length + t) = k.getD t 0) ∧
    (∀ t, t < v.length →
      getByte (putPair p k v) (inoLast p - k.length - v.length + t) = v.getD t 0) ∧
    (putPair p k v).length = p.length := by
  have hPB : PBLKSIZ = 1024 := rfl
  have hput : putPair p k v =
      setN (setIno (copyAt (setIno (copyAt p (inoLast p - k.length) k) (getN p + 1)
          (inoLast p - k.length)) (inoLast p - k.length - v.length) v) (getN p + 2)
          (inoLast p - k.length - v.length)) (getN p + 2) := by
    unfold putPair inoLast
    rfl
  have hn2 : 2 * getN p + 6 ≤ inoLast p - k.length - v.length := by omega
  have hl1 : (copyAt p (inoLast p - k.length) k).length = p.length := length_copyAt ..
  have hl2 : (setIno (copyAt p (inoLast p - k.length) k) (getN p + 1)
      (inoLast p - k.length)).length = p.length := by rw [length_setIno, hl1]
  have hl3 : (copyAt (setIno (copyAt p (inoLast p - k.length) k) (getN p + 1)
      (inoLast p - k.length)) (inoLast p - k.length - v.length) v).length = p.length := by
    rw [length_copyAt, hl2]
  have hl4 : (setIno (copyAt (setIno (copyAt p (inoLast p - k.length) k) (getN p + 1)
      (inoLast p - k.length)) (inoLast p - k.length - v.length) v) (getN p + 2)
      (inoLast p - k.length - v.length)).length = p.length := by
    rw [length_setIno, hl3]
  have hbyte : ∀ j, 2 ≤ j → (j < 2 * (getN p + 1) ∨ inoLast p ≤ j) →
      getByte (putPair p k v) j = getByte p j := by
    intro j hj2 hj
    rw [hput]
    rw [getByte_setN_ne _ _ _ hj2]
    rw [show setIno (copyAt (setIno (copyAt p (inoLast p - k.length) k) (getN p + 1)
        (inoLast p - k.length)) (inoLast p - k.length - v.length) v) (getN p + 2)
        (inoLast p - k.length - v.length) = setIno _ (getN p + 2) _ from rfl]
    rw [getByte_setIno_ne _ _ _ _ (by omega) (by omega)]
    rw [getByte_copyAt_out _ _ _ _ (by omega)]
    rw [getByte_setIno_ne _ _ _ _ (by omega) (by omega)]
    rw [getByte_copyAt_out _ _ _ _ (by omega)]
  refine ⟨fun j hj2 hjlt => hbyte j hj2 (Or.inl hjlt),
    fun j hj => hbyte j (by omega) (Or.inr hj), ?_, ?_, ?_, ?_, ?_, ?_, ?_⟩
  · intro i0 h1 h2
    exact getIno_congr _ p i0 (hbyte _ (by omega) (Or.inl (by omega)))
      (hbyte _ (by omega) (Or.inl (by omega)))
  · rw [hput]
    unfold setN
    show getIno (setIno _ 0 _) 0 = getN p + 2
    rw [getIno_setIno _ 0 _ (by rw [hl4]; omega)]
    omega
  · rw [hput]
    rw [getIno_setN_ne _ _ _ (by omega)]
    rw [getIno_setIno_ne _ _ _ _ (by omega)]
    rw [getIno_copyAt_out _ _ _ _ (by omega)]
    rw [getIno_setIno _ _ _ (by rw [hl1]; omega)]
    omega
  · rw [hput]
    rw [getIno_setN_ne _ _ _ (by omega)]
    rw [getIno_setIno _ _ _ (by rw [hl3]; omega)]
    omega
  · intro t ht
    rw [hput]
    rw [getByte_setN_ne _ _ _ (by omega)]
    rw [getByte_setIno_ne _ _ _ _ (by omega) (by omega)]
    rw [getByte_copyAt_out _ _ _ _ (by omega)]
    rw [getByte_setIno_ne _ _ _ _ (by omega) (by omega)]
    rw [getByte_copyAt_in _ _ _ _ ht (by omega)]
  · intro t ht
    rw [hput]
    rw [getByte_setN_ne _ _ _ (by omega)]
    rw [getByte_setIno_ne _ _ _ _ (by omega) (by omega)]
    rw [getByte_copyAt_in _ _ _ _ ht (by rw [hl2]; omega)]
  · rw [hput]
    unfold setN
    rw [length_setIno, hl4]

/-! ## Page-level specification of `PutPair` -/

theorem wfPage_chkLoop (p : Buf) (hwf : wfPage p) :
    chkPageLoop p (getN p / 2) 1 PBLKSIZ = true := by
  obtain ⟨-, hev, hchk, -⟩ := hwf
  unfold chkPage at hchk
  dsimp only at hchk
  by_cases h0 : getN p = 0
  · rw [h0]; rfl
  · have hgt : getN p > 0 := Nat.pos_of_ne_zero h0
    by_cases hbig : getN p > PBLKSIZ / SHORTSIZE
    · rw [if_pos hbig] at hchk; cases hchk
    · rw [if_neg hbig, if_pos hgt] at hchk
      rw [show getN p / 2 = (getN p + 1) / 2 by omega]
      exact hchk

theorem wfPage_chainEnd (p : Buf) (hwf : wfPage p) :
    chainEnd p (getN p / 2) 1 PBLKSIZ = inoLast p := by
  have hev := hwf.2.1
  unfold inoLast
  by_cases h0 : getN p = 0
  · rw [h0, if_neg (by omega)]
    rfl
  · have hgt : getN p > 0 := Nat.pos_of_ne_zero h0
    have h2 : 2 ≤ getN p := by omega
    rw [if_pos hgt, show getN p / 2 = (getN p / 2 - 1) + 1 by omega,
      chainEnd_closed, show 1 + 2 * (getN p / 2 - 1) + 1 = getN p by omega]

theorem wfPage_inoLast_le (p : Buf) (hwf : wfPage p) : inoLast p ≤ PBLKSIZ := by
  rw [← wfPage_chainEnd p hwf]
  exact chainEnd_le p _ 1 PBLKSIZ (wfPage_chkLoop p hwf)

/-- `PutPair` on a well-formed page with room (`FitPair` true) appends
the pair to the page's pair list, preserves well-formedness, increments
the entry count by 2 and lowers the payload floor by the pair's size. -/
theorem putPair_spec (p : Buf) (k v : List Nat)
    (hwf : wfPage p) (hfit : fitPair p (k.length + v.length) = true) :
    pairsOf (putPair p k v) = pairsOf p ++ [(k, v)] ∧
    wfPage (putPair p k v) ∧
    getN (putPair p k v) = getN p + 2 ∧
    inoLast (putPair p k v) = inoLast p - (k.length + v.length) := by
  have hPB : PBLKSIZ = 1024 := rfl
  have hfree : k.length + v.length + 4 + (getN p + 1) * 2 ≤ inoLast p :=
    (fitPair_iff p _).mp hfit
  have hlen := hwf.1
  have hev := hwf.2.1
  have hoff : inoLast p ≤ PBLKSIZ := wfPage_inoLast_le p hwf
  obtain ⟨hlow, hhigh, hinos, hgN, hino1, hino2, hkey, hval, hlen'⟩ :=
    putPair_bytes p k v hlen hoff hfree
  have hll : p.length = (putPair p k v).length := hlen'.symm
  have hcc := chain_congr p (putPair p k v) hll (getN p / 2) 1 PBLKSIZ
    (wfPage_chkLoop p hwf)
    (fun j h1 h2 => (hlow j (by omega) (by omega)).symm)
    (fun j h1 h2 => by
      rw [wfPage_chainEnd p hwf] at h1
      exact (hhigh j h1).symm)
  obtain ⟨hchk', hce', hpairs'⟩ := hcc
  rw [wfPage_chainEnd p hwf] at hce'
  have hslot : 1 + 2 * (getN p / 2) = getN p + 1 := by omega
  have hek : extractBuf (putPair p k v) (inoLast p - k.length) (inoLast p) = k := by
    refine buf_ext _ k ?_ fun j hj => ?_
    · rw [length_extractBuf, hlen', hlen]
      omega
    · rw [length_extractBuf, hlen', hlen] at hj
      have hj' : j < k.length := by omega
      show (extractBuf _ _ _).getD j 0 = getByte k j
      rw [getD_extractBuf, if_pos (by omega), hkey j hj']
      rfl
  have hevv : extractBuf (putPair p k v) (inoLast p - k.length - v.length)
      (inoLast p - k.length) = v := by
    refine buf_ext _ v ?_ fun j hj => ?_
    · rw [length_extractBuf, hlen', hlen]
      omega
    · rw [length_extractBuf, hlen', hlen] at hj
      have hj' : j < v.length := by omega
      show (extractBuf _ _ _).getD j 0 = getByte v j
      rw [getD_extractBuf, if_pos (by omega), hval j hj']
      rfl
  refine ⟨?_, ⟨by rw [hlen', hlen], by omega, ?_, ?_⟩, hgN, ?_⟩
  · unfold pairsOf
    rw [hgN, show (getN p + 2 + 1) / 2 = getN p / 2 + 1 by omega,
      pairsOfLoop_add, hpairs', hce', hslot,
      show (getN p + 1) / 2 = getN p / 2 by omega]
    congr 1
    rw [pairsOfLoop_succ]
    rw [show getN p + 1 + 1 = getN p + 2 from rfl, hino1, hino2, hek, hevv]
    rfl
  · unfold chkPage
    dsimp only
    rw [hgN]
    rw [if_neg (by rw [show PBLKSIZ / SHORTSIZE = 512 from rfl]; omega),
      if_pos (by omega)]
    rw [show (getN p + 2 + 1) / 2 = getN p / 2 + 1 by omega, chkPageLoop_add,
      hchk', hce', hslot, Bool.true_and]
    rw [chkPageLoop_succ]
    rw [show getN p + 1 + 1 = getN p + 2 from rfl, hino1, hino2]
    rw [if_neg (by omega)]
    rfl
  · right
    rw [hgN, show getN p + 2 + 1 = getN p + 3 from rfl,
      show getN p + 2 = getN p + 1 + 1 from rfl, hino2,
      show SHORTSIZE = 2 from rfl]
    omega
  · unfold inoLast
    rw [hgN, if_pos (by omega), hino2,
      show (if getN p > 0 then getIno p (getN p) else PBLKSIZ) = inoLast p from rfl]
    omega

/-! ## Page-level specification of `seePair`/`GetPair` -/

theorem seePairLoop_succ (p : Buf) (k : List Nat) (cnt i off : Nat) :
    seePairLoop p k (cnt + 1) i off =
      if k.length + getIno p i = off ∧
          extractBuf p (getIno p i) (getIno p i + k.length) = k
      then i else seePairLoop p k cnt (i + 2) (getIno p (i + 1)) := rfl

/-- One scan of `seePair`'s loop finds exactly the first pair of the
chain whose key is `k`: either no key matches and the loop returns 0, or
the loop returns the slot `i + 2t` of the first match, which is also the
pair `find?` returns. -/
theorem seePairLoop_find (p : Buf) (k : List Nat) : ∀ (cnt i off : Nat),
    chkPageLoop p cnt i off = true → off ≤ p.length →
    (seePairLoop p k cnt i off = 0 ∧
      (pairsOfLoop p cnt i off).find? (fun pr => pr.1 == k) = none) ∨
    (∃ t, t < cnt ∧ seePairLoop p k cnt i off = i + 2 * t ∧
      (pairsOfLoop p cnt i off).find? (fun pr => pr.1 == k) =
        some (extractBuf p (getIno p (i + 2 * t)) (chainEnd p t i off),
          extractBuf p (getIno p (i + 2 * t + 1)) (getIno p (i + 2 * t)))) := by
  intro cnt
  induction cnt with
  | zero =>
    intro i off _ _
    exact Or.inl ⟨rfl, rfl⟩
  | succ cnt ih =>
    intro i off hchk hoff
    rw [chkPageLoop_succ] at hchk
    by_cases hc : getIno p i > off ∨ getIno p (i + 1) > off ∨ getIno p (i + 1) > getIno p i
    · rw [if_pos hc] at hchk; cases hchk
    rw [if_neg hc] at hchk
    push_neg at hc
    have hmatch : (k.length + getIno p i = off ∧
        extractBuf p (getIno p i) (getIno p i + k.length) = k) ↔
        extractBuf p (getIno p i) off = k := by
      constructor
      · rintro ⟨h1, h2⟩
        rw [show off = getIno p i + k.length by omega]
        exact h2
      · intro h
        have hlk : k.length = off - getIno p i := by
          rw [← h, length_extractBuf]
          omega
        refine ⟨by omega, ?_⟩
        rw [show getIno p i + k.length = off by omega]
        exact h
    by_cases hkey : extractBuf p (getIno p i) off = k
    · right
      refine ⟨0, by omega, ?_, ?_⟩
      · rw [seePairLoop_succ, if_pos (hmatch.mpr hkey)]
        omega
      · rw [pairsOfLoop_succ, List.find?_cons_of_pos,
          show i + 2 * 0 = i by omega]
        · rfl
        · exact beq_iff_eq.mpr hkey
    · have hrec := ih (i + 2) (getIno p (i + 1)) hchk (le_trans hc.2.1 hoff)
      have hstep : seePairLoop p k (cnt + 1) i off =
          seePairLoop p k cnt (i + 2) (getIno p (i + 1)) := by
        rw [seePairLoop_succ, if_neg (fun hcon => hkey (hmatch.mp hcon))]
      have hfind : (pairsOfLoop p (cnt + 1) i off).find? (fun pr => pr.1 == k) =
          (pairsOfLoop p cnt (i + 2) (getIno p (i + 1))).find? (fun pr => pr.1 == k) := by
        rw [pairsOfLoop_succ, List.find?_cons_of_neg]
        simp only [beq_iff_eq]
        exact hkey
      rcases hrec with ⟨h1, h2⟩ | ⟨t, ht, h1, h2⟩
      · exact Or.inl ⟨hstep.trans h1, hfind.trans h2⟩
      · right
        refine ⟨t + 1, by omega, ?_, ?_⟩
        · rw [hstep, h1]
          omega
        · rw [hfind, h2, chainEnd_succ,
            show i + 2 * (t + 1) = i + 2 + 2 * t by omega]

/-- `GetPair` on a well-formed page returns the value of the first pair
of the page whose key is `k`, and `none` when no pair has key `k`. -/
theorem getPair_spec (p : Buf) (k : List Nat) (hwf : wfPage p) :
    getPair p k = ((pairsOf p).find? (fun pr => pr.1 == k)).map (fun pr => pr.2) := by
  have hchk := wfPage_chkLoop p hwf
  unfold getPair pairsOf seePair
  dsimp only
  by_cases h0 : getN p = 0
  · rw [if_pos h0, h0]
    rfl
  · rw [if_neg h0]
    have h2 : (getN p + 1) / 2 = getN p / 2 := by
      have := hwf.2.1
      omega
    rw [h2]
    rcases seePairLoop_find p k (getN p / 2) 1 PBLKSIZ hchk (le_of_eq hwf.1.symm) with
      ⟨h1, hf⟩ | ⟨t, ht, h1, hf⟩
    · rw [h1, if_pos rfl, hf]
      rfl
    · rw [h1, if_neg (by omega), hf]
      rfl

/-! ## Page-level specification of `SplPage` -/

theorem splPageLoop_step (cur : Buf) (sbit cnt i off : Nat) (a b : Buf) :
    splPageLoop cur sbit (cnt + 1) i off a b =
      if hashW (extractBuf cur (getIno cur i) off) &&& sbit ≠ 0 then
        splPageLoop cur sbit cnt (i + 2) (getIno cur (i + 1)) a
          (putPair b (extractBuf cur (getIno cur i) off)
            (extractBuf cur (getIno cur (i + 1)) (getIno cur i)))
      else
        splPageLoop cur sbit cnt (i + 2) (getIno cur (i + 1))
          (putPair a (extractBuf cur (getIno cur i) off)
            (extractBuf cur (getIno cur (i + 1)) (getIno cur i))) b := rfl

/-- The split loop, run over a chain of `cnt` pairs with both output
pages well-formed, packed, and with enough total room for everything
still to come, filters the chain's pairs onto the two pages by the test
`hash(key) & sbit`, appending in chain order. -/
theorem splPageLoop_spec (cur : Buf) (sbit : Nat) : ∀ (cnt i off : Nat) (a b : Buf),
    chkPageLoop cur cnt i off = true → off ≤ cur.length →
    wfPage a → wfPage b →
    inoLast a = PBLKSIZ - sizeSum (pairsOf a) →
    inoLast b = PBLKSIZ - sizeSum (pairsOf b) →
    sizeSum (pairsOf a) + sizeSum (pairsOf b) + sizeSum (pairsOfLoop cur cnt i off) +
      2 * getN a + 2 * getN b + 4 * cnt + 2 ≤ PBLKSIZ →
    pairsOf (splPageLoop cur sbit cnt i off a b).1 =
      pairsOf a ++ (pairsOfLoop cur cnt i off).filter
        (fun pr => hashW pr.1 &&& sbit == 0) ∧
    pairsOf (splPageLoop cur sbit cnt i off a b).2 =
      pairsOf b ++ (pairsOfLoop cur cnt i off).filter
        (fun pr => !(hashW pr.1 &&& sbit == 0)) ∧
    wfPage (splPageLoop cur sbit cnt i off a b).1 ∧
    wfPage (splPageLoop cur sbit cnt i off a b).2 ∧
    inoLast (splPageLoop cur sbit cnt i off a b).1 =
      PBLKSIZ - sizeSum (pairsOf (splPageLoop cur sbit cnt i off a b).1) ∧
    inoLast (splPageLoop cur sbit cnt i off a b).2 =
      PBLKSIZ - sizeSum (pairsOf (splPageLoop cur sbit cnt i off a b).2) := by
  intro cnt
  induction cnt with
  | zero =>
    intro i off a b _ _ hwa hwb hia hib _
    refine ⟨?_, ?_, hwa, hwb, hia, hib⟩ <;>
      simp [splPageLoop, pairsOfLoop]
  | succ cnt ih =>
    intro i off a b hchk hoff hwa hwb hia hib hbud
    rw [chkPageLoop_succ] at hchk
    by_cases hc : getIno cur i > off ∨ getIno cur (i + 1) > off ∨
        getIno cur (i + 1) > getIno cur i
    · rw [if_pos hc] at hchk; cases hchk
    rw [if_neg hc] at hchk
    push_neg at hc
    rw [pairsOfLoop_succ, sizeSum_cons] at hbud
    dsimp only at hbud
    by_cases hb : hashW (extractBuf cur (getIno cur i) off) &&& sbit = 0
    · rw [splPageLoop_step, if_neg (fun hcon => hcon hb)]
      have hfit : fitPair a ((extractBuf cur (getIno cur i) off).length +
          (extractBuf cur (getIno cur (i + 1)) (getIno cur i)).length) = true := by
        rw [fitPair_iff, hia]
        omega
      obtain ⟨hp1, hp2, hp3, hp4⟩ := putPair_spec a _ _ hwa hfit
      obtain ⟨g1, g2, g3, g4, g5, g6⟩ := ih (i + 2) (getIno cur (i + 1))
        (putPair a (extractBuf cur (getIno cur i) off)
          (extractBuf cur (getIno cur (i + 1)) (getIno cur i))) b
        hchk (le_trans hc.2.1 hoff) hp2 hwb
        (by rw [hp4, hia, hp1, sizeSum_append, sizeSum_cons, sizeSum_nil]
            dsimp only
            omega)
        hib
        (by rw [hp1, sizeSum_append, sizeSum_cons, sizeSum_nil, hp3]
            dsimp only
            omega)
      refine ⟨?_, ?_, g3, g4, g5, g6⟩
      · rw [g1, hp1, pairsOfLoop_succ]
        simp only [List.filter_cons]
        rw [if_pos (show ((hashW (extractBuf cur (getIno cur i) off) &&& sbit == 0) = true)
            from beq_iff_eq.mpr hb)]
        rw [List.append_assoc]
        rfl
      · rw [g2, pairsOfLoop_succ]
        simp only [List.filter_cons]
        rw [if_neg (by simp [hb])]
    · rw [splPageLoop_step, if_pos hb]
      have hfit : fitPair b ((extractBuf cur (getIno cur i) off).length +
          (extractBuf cur (getIno cur (i + 1)) (getIno cur i)).length) = true := by
        rw [fitPair_iff, hib]
        omega
      obtain ⟨hp1, hp2, hp3, hp4⟩ := putPair_spec b _ _ hwb hfit
      obtain ⟨g1, g2, g3, g4, g5, g6⟩ := ih (i + 2) (getIno cur (i + 1)) a
        (putPair b (extractBuf cur (getIno cur i) off)
          (extractBuf cur (getIno cur (i + 1)) (getIno cur i)))
        hchk (le_trans hc.2.1 hoff) hwa hp2 hia
        (by rw [hp4, hib, hp1, sizeSum_append, sizeSum_cons, sizeSum_nil]
            dsimp only
            omega)
        (by rw [hp1, sizeSum_append, sizeSum_cons, sizeSum_nil, hp3]
            dsimp only
            omega)
      refine ⟨?_, ?_, g3, g4, g5, g6⟩
      · rw [g1, pairsOfLoop_succ]
        simp only [List.filter_cons]
        rw [if_neg (by simp [hb])]
      · rw [g2, hp1, pairsOfLoop_succ]
        simp only [List.filter_cons]
        rw [if_pos (by simp [hb])]
        rw [List.append_assoc]
        rfl

/-- C7: `SplPage` on a well-formed page redistributes every key/value
pair of the original contents, iterating odd slots in order: the pairs
whose key `k` has `hash(k) & sbit ≠ 0` end up (in order) on the new
page, all the others (in order) on the emptied original page; after the
loop both pages pass `ChkPage` (indeed are well-formed) and together
hold exactly the original pairs. -/
theorem splPage_redistributes (p np : Buf) (sbit : Nat) (hwf : wfPage p) :
    pairsOf (splPage p np sbit).2 =
      (pairsOf p).filter (fun pr => !(hashW pr.1 &&& sbit == 0)) ∧
    pairsOf (splPage p np sbit).1 =
      (pairsOf p).filter (fun pr => hashW pr.1 &&& sbit == 0) ∧
    chkPage (splPage p np sbit).1 = true ∧
    chkPage (splPage p np sbit).2 = true ∧
    wfPage (splPage p np sbit).1 ∧ wfPage (splPage p np sbit).2 ∧
    (pairsOf (splPage p np sbit).1 ++ pairsOf (splPage p np sbit).2).Perm (pairsOf p) := by
  have hchk := wfPage_chkLoop p hwf
  have hce := wfPage_chainEnd p hwf
  have hev := hwf.2.1
  have hsz : sizeSum (pairsOfLoop p (getN p / 2) 1 PBLKSIZ) +
      chainEnd p (getN p / 2) 1 PBLKSIZ = PBLKSIZ :=
    sizeSum_chain p (getN p / 2) 1 PBLKSIZ hchk (le_of_eq hwf.1.symm)
  have hfreearea : getN p = 0 ∨ SHORTSIZE * (getN p + 1) ≤ getIno p (getN p) := hwf.2.2.2
  have hil : inoLast p = if getN p > 0 then getIno p (getN p) else PBLKSIZ := rfl
  have hroom : 2 * getN p + 2 ≤ inoLast p := by
    rw [hil]
    rcases hfreearea with h0 | hle
    · rw [h0, if_neg (by omega), show (PBLKSIZ : Nat) = 1024 from rfl]
      omega
    · rw [show (SHORTSIZE : Nat) = 2 from rfl] at hle
      by_cases hgt : getN p > 0
      · rw [if_pos hgt]
        omega
      · rw [if_neg hgt, show (PBLKSIZ : Nat) = 1024 from rfl]
        omega
  have hsp : splPage p np sbit =
      splPageLoop p sbit ((getN p + 1) / 2) 1 PBLKSIZ zeroBuf zeroBuf := rfl
  have h2 : (getN p + 1) / 2 = getN p / 2 := by omega
  have hpz : pairsOf zeroBuf = [] := by decide
  have hwz : wfPage zeroBuf := by decide
  have hiz : inoLast zeroBuf = PBLKSIZ - sizeSum (pairsOf zeroBuf) := by decide
  have hgz : getN zeroBuf = 0 := by decide
  obtain ⟨g1, g2, g3, g4, g5, g6⟩ := splPageLoop_spec p sbit (getN p / 2) 1 PBLKSIZ
    zeroBuf zeroBuf hchk (le_of_eq hwf.1.symm) hwz hwz hiz hiz
    (by rw [hpz, hgz, sizeSum_nil]
        have hPB : (PBLKSIZ : Nat) = 1024 := rfl
        omega)
  have hpair : pairsOfLoop p (getN p / 2) 1 PBLKSIZ = pairsOf p := by
    unfold pairsOf
    rw [h2]
  rw [hpair, hpz] at g1 g2
  rw [List.nil_append] at g1 g2
  rw [hsp, h2]
  refine ⟨g2, g1, g3.2.2.1, g4.2.2.1, g3, g4, ?_⟩
  rw [g1, g2]
  exact List.filter_append_perm _ (pairsOf p)

/-! ## The trie walk and `getPage` in the single-directory-block regime

While `maxbno ≤ DBLKSIZ·BITSIZ` every directory bit the walk can query
(`dbit < maxbno`) lies in directory block 0, so when block 0 is the one
cached (`dirbno = 0`, as on a fresh store) `getDBit` never refreshes the
cache and the walk neither changes the state nor depends on anything but
`maxbno` and `dirbuf`. -/

theorem walkLoop_pure (h : Nat) : ∀ (fuel : Nat) (s : DBM) (dbit hbit : Nat),
    s.dirbno = 0 → s.maxbno ≤ DBLKSIZ * BITSIZ →
    walkLoop h fuel s dbit hbit = (s, walkP h s.maxbno s.dirbuf fuel dbit hbit) := by
  intro fuel
  induction fuel with
  | zero => intro s dbit hbit _ _; rfl
  | succ fuel ih =>
    intro s dbit hbit hdb hmb
    rw [walkLoop, walkP]
    dsimp only
    by_cases hdm : dbit < s.maxbno
    · rw [if_pos hdm, if_pos hdm]
      have hdirb : dbit / BITSIZ / DBLKSIZ = 0 := by
        rw [show BITSIZ = 8 from rfl, show DBLKSIZ = 4096 from rfl]
        have h32 : DBLKSIZ * BITSIZ = 32768 := rfl
        omega
      have hgd : getDBit s dbit = (decide (getByte s.dirbuf (dbit / BITSIZ % DBLKSIZ) &&&
          (1 <<< (dbit % BITSIZ)) ≠ 0), s) := by
        unfold getDBit
        dsimp only
        rw [hdirb, hdb, if_neg (by simp)]
      rw [hgd]
      dsimp only
      simp only [decide_eq_true_eq]
      by_cases hbit1 : getByte s.dirbuf (dbit / BITSIZ % DBLKSIZ) &&&
          (1 <<< (dbit % BITSIZ)) ≠ 0
      · rw [if_pos hbit1, if_pos hbit1]
        exact ih s _ _ hdb hmb
      · rw [if_neg hbit1, if_neg hbit1]
    · rw [if_neg hdm, if_neg hdm]

theorem getPage_single_fields (s : DBM) (h : Nat)
    (hdb : s.dirbno = 0) (hmb : s.maxbno ≤ DBLKSIZ * BITSIZ) :
    (getPage s h).2.dirbno = 0 ∧ (getPage s h).2.dirbuf = s.dirbuf ∧
    (getPage s h).2.maxbno = s.maxbno ∧
    ((getPage s h).1 = none →
      (getPage s h).2.pagbno =
        ((h &&& masksGet (walkP h s.maxbno s.dirbuf s.maxbno 0 0).2 : Nat) : Int)) := by
  unfold getPage pagSeekRead
  rw [walkLoop_pure h s.maxbno s 0 0 hdb hmb]
  dsimp only
  split
  · split
    · exact ⟨hdb, rfl, rfl, fun _ => rfl⟩
    · exact ⟨hdb, rfl, rfl, fun hcon => Option.noConfusion hcon⟩
  · rename_i hnc
    exact ⟨hdb, rfl, rfl, fun _ => (not_ne_iff.mp hnc).symm⟩

theorem getPage_single_cached (s : DBM) (h : Nat)
    (hdb : s.dirbno = 0) (hmb : s.maxbno ≤ DBLKSIZ * BITSIZ)
    (hpb : s.pagbno =
      ((h &&& masksGet (walkP h s.maxbno s.dirbuf s.maxbno 0 0).2 : Nat) : Int)) :
    getPage s h = (none, { s with
      curbit := (walkP h s.maxbno s.dirbuf s.maxbno 0 0).1,
      hmask := masksGet (walkP h s.maxbno s.dirbuf s.maxbno 0 0).2 }) := by
  unfold getPage
  rw [walkLoop_pure h s.maxbno s 0 0 hdb hmb]
  dsimp only
  rw [if_neg (not_ne_iff.mpr hpb.symm)]

theorem find?_append_some {α : Type} (q : α → Bool) (l₁ l₂ : List α) (w : α)
    (h : l₁.find? q = some w) : (l₁ ++ l₂).find? q = some w := by
  induction l₁ with
  | nil => cases h
  | cons a l ih =>
    rw [List.cons_append]
    cases hq : q a with
    | true =>
      rw [List.find?_cons_of_pos _ hq] at h
      rw [List.find?_cons_of_pos _ hq]
      exact h
    | false =>
      rw [List.find?_cons_of_neg _ (by simp [hq])] at h
      rw [List.find?_cons_of_neg _ (by simp [hq])]
      exact ih h

theorem find?_append_none {α : Type} (q : α → Bool) (l₁ l₂ : List α)
    (h : l₁.find? q = none) : (l₁ ++ l₂).find? q = l₂.find? q := by
  induction l₁ with
  | nil => rfl
  | cons a l ih =>
    rw [List.cons_append]
    cases hq : q a with
    | true =>
      rw [List.find?_cons_of_pos _ hq] at h
      cases h
    | false =>
      rw [List.find?_cons_of_neg _ (by simp [hq])] at h
      rw [List.find?_cons_of_neg _ (by simp [hq])]
      exact ih h

/-- `storeFinish` when the pair fits (no split needed), in the
single-block regime with the page cache positioned on the key's page:
the pair is appended to the page, and a `Fetch` of the key from the
returned handle hits the cached page and resolves the key with `find?`
over the appended pair list. -/
theorem storeFinish_fetch (s1 : DBM) (kb vb : List Nat) (need : Nat)
    (hdb : s1.dirbno = 0) (hmb : s1.maxbno ≤ DBLKSIZ * BITSIZ)
    (hpb : s1.pagbno =
      ((hashW kb &&& masksGet
        (walkP (hashW kb) s1.maxbno s1.dirbuf s1.maxbno 0 0).2 : Nat) : Int))
    (hwf : wfPage s1.pag)
    (hfit : fitPair s1.pag need = true)
    (hneed : need = kb.length + vb.length) :
    (storeFinish s1 (hashW kb) need (some kb) (some vb)).1 = true ∧
    (storeFinish s1 (hashW kb) need (some kb) (some vb)).2.1 = none ∧
    pairsOf (storeFinish s1 (hashW kb) need (some kb) (some vb)).2.2.pag =
      pairsOf s1.pag ++ [(kb, vb)] ∧
    (Fetch (storeFinish s1 (hashW kb) need (some kb) (some vb)).2.2 (some kb)).1 =
      ((pairsOf s1.pag ++ [(kb, vb)]).find? (fun pr => pr.1 == kb)).map
        (fun pr => pr.2) ∧
    (Fetch (storeFinish s1 (hashW kb) need (some kb) (some vb)).2.2 (some kb)).2.1
      = none := by
  subst hneed
  obtain ⟨hp1, hp2, hp3, hp4⟩ := putPair_spec s1.pag kb vb hwf hfit
  have hSF : storeFinish s1 (hashW kb) (kb.length + vb.length) (some kb) (some vb) =
      (true, none, pagSeekWrite { s1 with pag := putPair s1.pag kb vb }
        (offPag s1.pagbno) (putPair s1.pag kb vb)) := by
    unfold storeFinish
    dsimp only
    rw [if_pos hfit]
    rfl
  have hcache := getPage_single_cached
    (pagSeekWrite { s1 with pag := putPair s1.pag kb vb }
      (offPag s1.pagbno) (putPair s1.pag kb vb)) (hashW kb) hdb hmb hpb
  have hFetch : Fetch (pagSeekWrite { s1 with pag := putPair s1.pag kb vb }
      (offPag s1.pagbno) (putPair s1.pag kb vb)) (some kb) =
      (getPair (putPair s1.pag kb vb) kb, none,
        (getPage (pagSeekWrite { s1 with pag := putPair s1.pag kb vb }
          (offPag s1.pagbno) (putPair s1.pag kb vb)) (hashW kb)).2) := by
    unfold Fetch
    rw [show bad (some kb) = false from rfl, if_neg Bool.false_ne_true,
      show exHashU (some kb) = hashW kb from rfl, hcache]
    rfl
  rw [hSF]
  refine ⟨rfl, rfl, hp1, ?_, ?_⟩
  · rw [show (true, (none : Option Err), pagSeekWrite { s1 with pag := putPair s1.pag kb vb }
      (offPag s1.pagbno) (putPair s1.pag kb vb)).2.2 = pagSeekWrite
      { s1 with pag := putPair s1.pag kb vb } (offPag s1.pagbno)
      (putPair s1.pag kb vb) from rfl, hFetch]
    show getPair (putPair s1.pag kb vb) kb = _
    rw [getPair_spec _ _ hp2, hp1]
  · rw [show (true, (none : Option Err), pagSeekWrite { s1 with pag := putPair s1.pag kb vb }
      (offPag s1.pagbno) (putPair s1.pag kb vb)).2.2 = pagSeekWrite
      { s1 with pag := putPair s1.pag kb vb } (offPag s1.pagbno)
      (putPair s1.pag kb vb) from rfl, hFetch]

/-- C9: with a flags value that is neither `StoreREPLACE` nor
`StoreSEEDUPS` (for example 0), `Store` of a key that is already present
on the page appends a second pair for the same key at the end of the
page without removing the first, and a subsequent `Fetch` of that key
returns the value of the earliest-inserted surviving pair with that key
(`seePair` returns the lowest matching odd slot, i.e. the first match in
slot order, here the `find?`-first pair `w`).  Stated in the regime
where the directory cache holds block 0 and the trie fits in one
directory block, for a well-formed page with room for the new pair. -/
theorem store_dup_keeps_first (s : DBM) (kb vb : List Nat) (flags : StoreFlags)
    (w : List Nat × List Nat)
    (hf1 : flags ≠ StoreREPLACE) (hf2 : flags ≠ StoreSEEDUPS)
    (hrd : s.rdonly = false)
    (hneed : kb.length + vb.length ≤ PAIRMAX)
    (hdb : s.dirbno = 0) (hmb : s.maxbno ≤ DBLKSIZ * BITSIZ)
    (hget : (getPage s (hashW kb)).1 = none)
    (hwf : wfPage (getPage s (hashW kb)).2.pag)
    (hfit : fitPair (getPage s (hashW kb)).2.pag (kb.length + vb.length) = true)
    (hpresent : (pairsOf (getPage s (hashW kb)).2.pag).find? (fun pr => pr.1 == kb)
      = some w) :
    (Store s (some kb) (some vb) flags).1 = true ∧
    (Store s (some kb) (some vb) flags).2.1 = none ∧
    pairsOf (Store s (some kb) (some vb) flags).2.2.pag =
      pairsOf (getPage s (hashW kb)).2.pag ++ [(kb, vb)] ∧
    (Fetch (Store s (some kb) (some vb) flags).2.2 (some kb)).1 = some w.2 ∧
    (Fetch (Store s (some kb) (some vb) flags).2.2 (some kb)).2.1 = none := by
  obtain ⟨f1, f2, f3, f4⟩ := getPage_single_fields s (hashW kb) hdb hmb
  have hg : getPage s (hashW kb) = (none, (getPage s (hashW kb)).2) := by
    rw [← hget]
  have hStore : Store s (some kb) (some vb) flags =
      storeFinish (getPage s (hashW kb)).2 (hashW kb)
        (Datum.size (some kb) + Datum.size (some vb)) (some kb) (some vb) := by
    unfold Store
    rw [show bad (some kb) = false from rfl, if_neg Bool.false_ne_true,
      hrd, if_neg Bool.false_ne_true]
    dsimp only
    rw [if_neg (show ¬(Datum.size (some kb) + Datum.size (some vb) > PAIRMAX) from by
      show ¬(kb.length + vb.length > PAIRMAX)
      omega)]
    rw [show exHashU (some kb) = hashW kb from rfl, hg]
    dsimp only
    rw [if_neg hf1, if_neg (fun hcon => hf2 hcon.1)]
  have hpb1 : (getPage s (hashW kb)).2.pagbno =
      ((hashW kb &&& masksGet (walkP (hashW kb) (getPage s (hashW kb)).2.maxbno
        (getPage s (hashW kb)).2.dirbuf (getPage s (hashW kb)).2.maxbno 0 0).2
        : Nat) : Int) := by
    rw [f2, f3]
    exact f4 hget
  obtain ⟨c1, c2, c3, c4, c5⟩ := storeFinish_fetch (getPage s (hashW kb)).2 kb vb
    (Datum.size (some kb) + Datum.size (some vb)) f1
    (by rw [f3]; exact hmb) hpb1 hwf hfit rfl
  rw [hStore]
  refine ⟨c1, c2, c3, ?_, c5⟩
  rw [c4, find?_append_some _ _ _ w hpresent]
  rfl

/-- Witness for C9: on `storeA` (page `[("a","1")]`) a second
`Store("a","2")` with flags 0 appends `("a","2")` and `Fetch("a")` still
returns `"1"`. -/
theorem store_dup_keeps_first_witness :
    ((0 : StoreFlags) ≠ StoreREPLACE ∧ (0 : StoreFlags) ≠ StoreSEEDUPS ∧
      storeA.rdonly = false ∧ [97].length + [50].length ≤ PAIRMAX ∧
      storeA.dirbno = 0 ∧ storeA.maxbno ≤ DBLKSIZ * BITSIZ ∧
      (getPage storeA (hashW [97])).1 = none ∧
      wfPage (getPage storeA (hashW [97])).2.pag ∧
      fitPair (getPage storeA (hashW [97])).2.pag ([97].length + [50].length) = true ∧
      (pairsOf (getPage storeA (hashW [97])).2.pag).find? (fun pr => pr.1 == [97])
        = some ([97], [49])) ∧
    ((Store storeA (some [97]) (some [50]) 0).1 = true ∧
      (Store storeA (some [97]) (some [50]) 0).2.1 = none ∧
      pairsOf (Store storeA (some [97]) (some [50]) 0).2.2.pag =
        pairsOf (getPage storeA (hashW [97])).2.pag ++ [([97], [50])] ∧
      (Fetch (Store storeA (some [97]) (some [50]) 0).2.2 (some [97])).1
        = some [49] ∧
      (Fetch (Store storeA (some [97]) (some [50]) 0).2.2 (some [97])).2.1
        = none) :=
  ⟨⟨by decide, by decide, by decide, by decide, by decide, by decide, by decide,
    by decide, by decide, by decide⟩,
   store_dup_keeps_first storeA [97] [50] 0 ([97], [49]) (by decide) (by decide)
     (by decide) (by decide) (by decide) (by decide) (by decide) (by decide)
     (by decide) (by decide)⟩

/-- C1, counterexample: on a store whose page carries two pairs with the
same key `"a"` (inserted with flags 0), `Store("a", "3", StoreREPLACE)`
succeeds — the key is non-empty, `|k| + |v| ≤ 1008`, the store is
writable — but the subsequent `Fetch("a")` returns `"2"`, not `"3"`:
the REPLACE delete removes only the lowest-slot duplicate, and `Fetch`
then finds the surviving older duplicate before the newly stored pair. -/
theorem replace_roundtrip_duplicate_cex :
    ([97] : List Nat) ≠ [] ∧
    [97].length + [51].length ≤ PAIRMAX ∧
    storeAA.rdonly = false ∧
    (Store storeAA (some [97]) (some [51]) StoreREPLACE).1 = true ∧
    (Store storeAA (some [97]) (some [51]) StoreREPLACE).2.1 = none ∧
    (Fetch (Store storeAA (some [97]) (some [51]) StoreREPLACE).2.2 (some [97])).1
      = some [50] ∧
    (Fetch (Store storeAA (some [97]) (some [51]) StoreREPLACE).2.2 (some [97])).1
      ≠ some [51] := by
  decide

/-- C1 (amended): for a non-empty key `kb` and value `vb` with
`|kb| + |vb| ≤ 1008` on a writable store (single-directory-block regime,
`getPage` succeeding), if after the REPLACE-delete the page is
well-formed, has room, and carries no further pair with key `kb` — in
particular whenever the key was present at most once — then
`Store(kb, vb, StoreREPLACE)` succeeds and a subsequent `Fetch(kb)`
returns exactly `vb`. -/
theorem store_replace_roundtrip (s : DBM) (kb vb : List Nat)
    (hk : kb ≠ [])
    (hrd : s.rdonly = false)
    (hneed : kb.length + vb.length ≤ PAIRMAX)
    (hdb : s.dirbno = 0) (hmb : s.maxbno ≤ DBLKSIZ * BITSIZ)
    (hget : (getPage s (hashW kb)).1 = none)
    (hwfd : wfPage (delPair (getPage s (hashW kb)).2.pag kb).2)
    (hfitd : fitPair (delPair (getPage s (hashW kb)).2.pag kb).2
      (kb.length + vb.length) = true)
    (hgone : (pairsOf (delPair (getPage s (hashW kb)).2.pag kb).2).find?
      (fun pr => pr.1 == kb) = none) :
    (Store s (some kb) (some vb) StoreREPLACE).1 = true ∧
    (Store s (some kb) (some vb) StoreREPLACE).2.1 = none ∧
    (Fetch (Store s (some kb) (some vb) StoreREPLACE).2.2 (some kb)).1 = some vb ∧
    (Fetch (Store s (some kb) (some vb) StoreREPLACE).2.2 (some kb)).2.1 = none := by
  obtain ⟨f1, f2, f3, f4⟩ := getPage_single_fields s (hashW kb) hdb hmb
  have hg : getPage s (hashW kb) = (none, (getPage s (hashW kb)).2) := by
    rw [← hget]
  have hStore : Store s (some kb) (some vb) StoreREPLACE =
      storeFinish { (getPage s (hashW kb)).2 with
          pag := (delPair (getPage s (hashW kb)).2.pag kb).2 } (hashW kb)
        (Datum.size (some kb) + Datum.size (some vb)) (some kb) (some vb) := by
    unfold Store
    rw [show bad (some kb) = false from rfl, if_neg Bool.false_ne_true,
      hrd, if_neg Bool.false_ne_true]
    dsimp only
    rw [if_neg (show ¬(Datum.size (some kb) + Datum.size (some vb) > PAIRMAX) from by
      show ¬(kb.length + vb.length > PAIRMAX)
      omega)]
    rw [show exHashU (some kb) = hashW kb from rfl, hg]
    dsimp only
    rw [if_pos rfl]
    rfl
  have hpb1 : (getPage s (hashW kb)).2.pagbno =
      ((hashW kb &&& masksGet (walkP (hashW kb) (getPage s (hashW kb)).2.maxbno
        (getPage s (hashW kb)).2.dirbuf (getPage s (hashW kb)).2.maxbno 0 0).2
        : Nat) : Int) := by
    rw [f2, f3]
    exact f4 hget
  obtain ⟨c1, c2, c3, c4, c5⟩ := storeFinish_fetch
    { (getPage s (hashW kb)).2 with
        pag := (delPair (getPage s (hashW kb)).2.pag kb).2 } kb vb
    (Datum.size (some kb) + Datum.size (some vb)) f1
    (by show (getPage s (hashW kb)).2.maxbno ≤ DBLKSIZ * BITSIZ
        rw [f3]; exact hmb)
    hpb1 hwfd hfitd rfl
  rw [hStore]
  refine ⟨c1, c2, ?_, c5⟩
  rw [c4]
  show ((pairsOf (delPair (getPage s (hashW kb)).2.pag kb).2
    ++ [(kb, vb)]).find? (fun pr => pr.1 == kb)).map (fun pr => pr.2) = some vb
  rw [find?_append_none _ _ _ hgone, List.find?_cons_of_pos _ (by simp)]
  rfl

/-- Witness for the amended C1 at `storeA` (page `[("a","1")]`, the key
present exactly once): `Store("a","2",StoreREPLACE)` then `Fetch("a")`
returns `"2"`. -/
theorem store_replace_roundtrip_witness :
    (([97] : List Nat) ≠ [] ∧ storeA.rdonly = false ∧
      [97].length + [50].length ≤ PAIRMAX ∧
      storeA.dirbno = 0 ∧ storeA.maxbno ≤ DBLKSIZ * BITSIZ ∧
      (getPage storeA (hashW [97])).1 = none ∧
      wfPage (delPair (getPage storeA (hashW [97])).2.pag [97]).2 ∧
      fitPair (delPair (getPage storeA (hashW [97])).2.pag [97]).2
        ([97].length + [50].length) = true ∧
      (pairsOf (delPair (getPage storeA (hashW [97])).2.pag [97]).2).find?
        (fun pr => pr.1 == [97]) = none) ∧
    ((Store storeA (some [97]) (some [50]) StoreREPLACE).1 = true ∧
      (Store storeA (some [97]) (some [50]) StoreREPLACE).2.1 = none ∧
      (Fetch (Store storeA (some [97]) (some [50]) StoreREPLACE).2.2 (some [97])).1
        = some [50] ∧
      (Fetch (Store storeA (some [97]) (some [50]) StoreREPLACE).2.2 (some [97])).2.1
        = none) :=
  ⟨⟨by decide, by decide, by decide, by decide, by decide, by decide, by decide,
    by decide, by decide⟩,
   store_replace_roundtrip storeA [97] [50] (by decide) (by decide) (by decide)
     (by decide) (by decide) (by decide) (by decide) (by decide) (by decide)⟩

/-- Witness for C7 at the two-pair page `abPage` with `sbit = 1`:
`("a","1")` (hash 97) moves to the new page, `("b","2")` (hash 98)
stays. -/
theorem splPage_redistributes_witness :
    wfPage abPage ∧
    (pairsOf (splPage abPage zeroBuf 1).2 =
        (pairsOf abPage).filter (fun pr => !(hashW pr.1 &&& 1 == 0)) ∧
      pairsOf (splPage abPage zeroBuf 1).1 =
        (pairsOf abPage).filter (fun pr => hashW pr.1 &&& 1 == 0) ∧
      chkPage (splPage abPage zeroBuf 1).1 = true ∧
      chkPage (splPage abPage zeroBuf 1).2 = true ∧
      wfPage (splPage abPage zeroBuf 1).1 ∧ wfPage (splPage abPage zeroBuf 1).2 ∧
      (pairsOf (splPage abPage zeroBuf 1).1 ++
        pairsOf (splPage abPage zeroBuf 1).2).Perm (pairsOf abPage)) :=
  ⟨by decide, splPage_redistributes abPage zeroBuf 1 (by decide)⟩

end Sdbm
